import Mathlib

/-!
# midiloop: a shallow embedding of the MIDI recorder / player

The development follows `src/main.c` (USB packet recorder and player) and
`src/midirec.c` (serial-stream recorder).

* Bytes and machine integers are natural numbers; `fputc` stores its argument
  modulo 256 and 32-bit unsigned arithmetic is reduced modulo `2 ^ 32` where the
  C code can overflow.
* A `FILE` is the byte content of the file together with the current position.
* `fgetc` answers `none` for the C value `EOF`.
* The scratch buffer of `write_varlen` is a list. For values below `2 ^ 28` it has at
  most four slots, as the array of the C code, and the embedding is the C function.
  For larger values the C code stores a fifth slot outside its array; the list then
  only tells which stores the loop asks for. The statements about what a recorder
  writes are therefore made for delta-times below `2 ^ 28`.
* The `long` arithmetic on clock readings is taken not to overflow; the conversion
  of the tick count to `unsigned int` is modulo `2 ^ 32`.
* The stop flag `g_stop` is set between two polls: a recording is the finite list of
  transfers that arrive before it is set, and a pass of the player runs with the flag
  clear. `play_loop` counts rounds with `fuel` and answers `none` when they run out.
-/

namespace Midiloop

/-! ## The stdio file model -/

/-- A stdio stream: the bytes of the file and the file position indicator. -/
structure FILE where
  data : List Nat
  pos : Nat
deriving DecidableEq, Repr

/-- The stream `fopen(file, "wb")` returns: an empty file at position 0. -/
def fopen_wb : FILE := { data := [], pos := 0 }

/-- The stream `fopen(file, "rb")` returns for a file holding `bytes`. -/
def fopen_rb (bytes : List Nat) : FILE := { data := bytes, pos := 0 }

/-- The call `fputc(c, f)`: the value is converted to `unsigned char` and stored at
the current position, overwriting a byte that is already there and extending the
file otherwise (a gap left by a seek past the end reads as zero bytes). -/
def fputc (c : Nat) (f : FILE) : FILE :=
  if f.pos < f.data.length then
    { data := f.data.set f.pos (c % 256), pos := f.pos + 1 }
  else
    { data := f.data ++ List.replicate (f.pos - f.data.length) 0 ++ [c % 256],
      pos := f.pos + 1 }

/-- The call `fputs(s, f)` for a string given by its character codes. -/
def fputs (s : List Nat) (f : FILE) : FILE :=
  s.foldl (fun g c => fputc c g) f

/-- The call `fgetc(f)`: the byte at the current position, advancing by one, or
`none` (the C value `EOF`) at or past the end of the file, the position unchanged. -/
def fgetc (f : FILE) : Option Nat × FILE :=
  match f.data[f.pos]? with
  | some c => (some c, { f with pos := f.pos + 1 })
  | none => (none, f)

/-- A stream positioned at the end of its content `bytes`, as a stream that has only
been written to is. -/
def at_end (bytes : List Nat) : FILE := { data := bytes, pos := bytes.length }

/-- A stream over `bytes` positioned at offset `pos`. -/
def at_pos (bytes : List Nat) (pos : Nat) : FILE := { data := bytes, pos := pos }

/-- The call `ftell(f)`. -/
def ftell (f : FILE) : Nat := f.pos

/-- The call `fseek(f, offset, SEEK_SET)` for a non-negative offset. -/
def fseek_set (f : FILE) (offset : Nat) : FILE := { f with pos := offset }

/-- The call `fseek(f, offset, SEEK_CUR)`: the position moves by `offset`; a seek to a
negative position fails and leaves the position where it was. -/
def fseek_cur (f : FILE) (offset : Int) : FILE :=
  if 0 ≤ (f.pos : Int) + offset then { f with pos := ((f.pos : Int) + offset).toNat }
  else f

/-! ## The variable-length quantity codec (`main.c` 19-39, `midirec.c` 12-20) -/

/-- The loop `while ((value >>= 7) > 0) buffer[i++] = 0x80 | (value & 0x7F);` of
`write_varlen`. `buffer` lists the slots stored so far in index order, so that the
index `i` of the C code is `buffer.length`. The scratch array of the C code has four
slots; the list is not bounded, `write_varlen_slots` tells how many slots a value
needs: at most four exactly when the value is below `2 ^ 28`, the range in which the
list is the content of the array. -/
def write_varlen_loop (value : Nat) (buffer : List Nat) : List Nat :=
  if _h : value >>> 7 > 0 then
    write_varlen_loop (value >>> 7) (buffer ++ [(0x80 ||| ((value >>> 7) &&& 0x7F)) % 256])
  else buffer
termination_by value
decreasing_by
  rw [Nat.shiftRight_eq_div_pow] at _h ⊢
  exact Nat.div_lt_self (Nat.pos_of_ne_zero (fun h0 => by simp [h0] at _h)) (by norm_num)

/-- The scratch buffer of `write_varlen` once both stores are done: slot 0 holds
`value & 0x7F`, the following slots the higher groups with bit 0x80 set. -/
def write_varlen_buffer (value : Nat) : List Nat :=
  write_varlen_loop value [(value &&& 0x7F) % 256]

/-- The value of the index `i` when the stores of `write_varlen` are done: the
number of slots of the scratch buffer that were written. -/
def write_varlen_slots (value : Nat) : Nat := (write_varlen_buffer value).length

/-- The bytes `write_varlen` hands to `fputc`, in order: `buffer[i-1]` down to
`buffer[0]`. -/
def varlen_bytes (value : Nat) : List Nat := (write_varlen_buffer value).reverse

/-- The function `write_varlen(f, value)`. -/
def write_varlen (f : FILE) (value : Nat) : FILE :=
  (varlen_bytes value).foldl (fun g c => fputc c g) f

/-- The assignment `value = (value << 7) | (c & 0x7F)` of `read_varlen`. The
accumulator is a 32-bit unsigned integer, so the shift is reduced modulo `2 ^ 32`. -/
def varlen_accumulate (value c : Nat) : Nat :=
  ((value <<< 7) % 2 ^ 32) ||| (c &&& 0x7F)

/-- The do-while loop of `read_varlen`, entered with the value accumulated so far.
At `EOF` the function returns 0. -/
def read_varlen_loop (f : FILE) (value : Nat) : Nat × FILE :=
  match h : fgetc f with
  | (none, g) => (0, g)
  | (some c, g) =>
    if c &&& 0x80 ≠ 0 then read_varlen_loop g (varlen_accumulate value c)
    else (varlen_accumulate value c, g)
termination_by f.data.length - f.pos
decreasing_by
  unfold fgetc at h
  split at h
  · next c0 hc =>
    have hlt : f.pos < f.data.length := (List.getElem?_eq_some_iff.mp hc).1
    simp only [Prod.mk.injEq] at h
    rw [← h.2]
    simp only
    omega
  · simp at h

/-- The function `read_varlen(f)`: the decoded value and the stream after the call. -/
def read_varlen (f : FILE) : Nat × FILE := read_varlen_loop f 0

/-! ## Clock readings and the tick conversion -/

/-- A `struct timespec` as `clock_gettime` fills it. -/
structure timespec where
  tv_sec : Int
  tv_nsec : Int
deriving DecidableEq, Repr, Inhabited

/-- The elapsed time `delta_ms` between two clock readings (`main.c` 95-96,
`midirec.c` 94): `long` arithmetic, the division truncating toward zero. -/
def delta_ms (last now : timespec) : Int :=
  (now.tv_sec - last.tv_sec) * 1000 + Int.tdiv (now.tv_nsec - last.tv_nsec) 1000000

/-- The capture formula `int ticks = delta_ms * ppq / 500` with `ppq = 480`. -/
def capture_ticks (ms : Int) : Int := Int.tdiv (ms * 480) 500

/-- The conversion of an `int` argument to the `unsigned int` parameter of
`write_varlen`. -/
def to_unsigned (x : Int) : Nat := (x % 4294967296).toNat

/-- The value `write_varlen` receives for an event: the ticks between two clock
readings, as `unsigned int`. -/
def delta_ticks (last now : timespec) : Nat :=
  to_unsigned (capture_ticks (delta_ms last now))

/-! ## The recorder of `main.c` (`do_record`) -/

/-- The character codes of the chunk id "MThd". -/
def MThd : List Nat := [0x4D, 0x54, 0x68, 0x64]

/-- The character codes of the chunk id "MTrk". -/
def MTrk : List Nat := [0x4D, 0x54, 0x72, 0x6B]

/-- The ticks per quarter note, `uint16_t ppq = 480`. -/
def ppq : Nat := 480

/-- The header chunk and the start of the track chunk (`main.c` 49-58): the stream
after the four placeholder bytes, and `track_len_pos`, the offset `ftell` reported
before them. -/
def record_begin (midi_f : FILE) : FILE × Nat :=
  let f := fputs MThd midi_f
  let f := f |> fputc 0 |> fputc 0 |> fputc 0 |> fputc 6
  let f := f |> fputc 0 |> fputc 0
  let f := f |> fputc 0 |> fputc 1
  let f := f |> fputc ((ppq >>> 8) &&& 0xFF) |> fputc (ppq &&& 0xFF)
  let f := fputs MTrk f
  let track_len_pos := ftell f
  let f := f |> fputc 0 |> fputc 0 |> fputc 0 |> fputc 0
  (f, track_len_pos)

/-- The Set-Tempo meta event written before the first note (`main.c` 85-87). -/
def write_tempo (midi_f : FILE) : FILE :=
  let f := write_varlen midi_f 0
  let f := f |> fputc 0xFF |> fputc 0x51 |> fputc 0x03
  f |> fputc 0x07 |> fputc 0xA1 |> fputc 0x20

/-- One event as `do_record` stores it (`main.c` 99-102): the delta-time, the status
byte, the first data byte, and the second one unless `0xC0 <= s <= 0xDF`. -/
def write_event (midi_f : FILE) (ticks s d1 d2 : Nat) : FILE :=
  let f := write_varlen midi_f ticks
  let f := fputc s f
  let f := fputc d1 f
  if ¬ (s ≥ 0xC0 ∧ s ≤ 0xDF) then fputc d2 f else f

/-- The end of a recording (`main.c` 117-127, `midirec.c` 126-136): the End-Of-Track
meta event, then the track length patched at `track_len_pos`. -/
def record_finish (midi_f : FILE) (track_len_pos : Nat) : FILE :=
  let f := write_varlen midi_f 0
  let f := f |> fputc 0xFF |> fputc 0x2F |> fputc 0x00
  let end_pos := ftell f
  let f := fseek_set f track_len_pos
  let len := to_unsigned ((end_pos : Int) - (track_len_pos : Int) - 4)
  let f := fputc ((len >>> 24) &&& 0xFF) f
  let f := fputc ((len >>> 16) &&& 0xFF) f
  let f := fputc ((len >>> 8) &&& 0xFF) f
  fputc (len &&& 0xFF) f

/-- The four bytes `buf[i] .. buf[i+3]` one round of the packet loop of `do_record`
looks at, with the readings the two `clock_gettime` calls of that round return when
they are executed: `start` for the call at line 80, `now` for the call at line 94. -/
structure UsbPacket where
  b0 : Nat
  b1 : Nat
  b2 : Nat
  b3 : Nat
  start : timespec
  now : timespec
deriving DecidableEq, Repr, Inhabited

/-- The local variables of `do_record` that live across packets. -/
structure RecState where
  midi_f : FILE
  first_note_played : Bool
  last : timespec
deriving DecidableEq, Repr

/-- One round of the packet loop of `do_record` (`main.c` 72-111); the terminal
output is left out. -/
def record_packet (st : RecState) (p : UsbPacket) : RecState :=
  let cin := (p.b0 &&& 0x0F) % 256
  let s := p.b1 % 256
  let d1 := p.b2 % 256
  let d2 := p.b3 % 256
  if cin ≥ 0x8 ∧ cin ≤ 0xE then
    let st1 : RecState :=
      if st.first_note_played = false ∧ (s &&& 0xF0) = 0x90 ∧ d2 > 0 then
        { midi_f := write_tempo st.midi_f, first_note_played := true, last := p.start }
      else st
    if st1.first_note_played = false then st1
    else
      { midi_f := write_event st1.midi_f (delta_ticks st1.last p.now) s d1 d2,
        first_note_played := true,
        last := p.now }
  else st

/-- One call of `libusb_bulk_transfer` as `do_record` sees it: the return value, the
byte count, the content of `buf` after the call and the clock readings for the
packets of this transfer. -/
structure Transfer where
  r : Int
  transferred : Int
  buf : List Nat
  clock : List (timespec × timespec)
deriving DecidableEq, Repr

/-- The packets the loop `for (i = 0; i < transferred; i += 4)` visits, none unless
`r == 0 && transferred >= 4`. -/
def transfer_packets (t : Transfer) : List UsbPacket :=
  if t.r = 0 ∧ t.transferred ≥ 4 then
    (List.range ((t.transferred.toNat + 3) / 4)).map fun k =>
      { b0 := t.buf.getD (4 * k) 0 % 256,
        b1 := t.buf.getD (4 * k + 1) 0 % 256,
        b2 := t.buf.getD (4 * k + 2) 0 % 256,
        b3 := t.buf.getD (4 * k + 3) 0 % 256,
        start := (t.clock.getD k default).1,
        now := (t.clock.getD k default).2 }
  else []

/-- The state of `do_record` when the polling loop starts; `last` is not yet
initialised and never read before the first note sets it. -/
def record_init (midi_f : FILE) : RecState :=
  { midi_f := midi_f, first_note_played := false, last := default }

/-- The function `do_record` for the transfers that arrive until `g_stop` is set: the
stream at `fclose`. -/
def do_record (transfers : List Transfer) : FILE :=
  let (f, track_len_pos) := record_begin fopen_wb
  let st := transfers.foldl
    (fun st t => (transfer_packets t).foldl record_packet st) (record_init f)
  record_finish st.midi_f track_len_pos

/-- The packets the loops of `do_record` visit for a sequence of transfers, in
order. -/
def visited_packets (transfers : List Transfer) : List UsbPacket :=
  (transfers.map transfer_packets).flatten

/-- The recording of `do_record` as a function of the packets its loop visits, in
order. -/
def record_stream (packets : List UsbPacket) : FILE :=
  let (f, track_len_pos) := record_begin fopen_wb
  let st := packets.foldl record_packet (record_init f)
  record_finish st.midi_f track_len_pos

/-- The 18 bytes in front of the track length: "MThd", length 6, format 0, one track,
480 ticks per quarter note, "MTrk". -/
def smf_preamble : List Nat :=
  MThd ++ [0x00, 0x00, 0x00, 0x06, 0x00, 0x00, 0x00, 0x01, 0x01, 0xE0] ++ MTrk

/-- The zero-delta End-Of-Track meta event. -/
def end_of_track : List Nat := [0x00, 0xFF, 0x2F, 0x00]

/-- The zero-delta Set-Tempo meta event for 500000 microseconds per quarter note. -/
def set_tempo : List Nat := [0x00, 0xFF, 0x51, 0x03, 0x07, 0xA1, 0x20]

/-- The four bytes `record_finish` stores for the track length `len`
(`main.c` 124-127). -/
def be32 (len : Nat) : List Nat :=
  [((len >>> 24) &&& 0xFF) % 256, ((len >>> 16) &&& 0xFF) % 256,
   ((len >>> 8) &&& 0xFF) % 256, (len &&& 0xFF) % 256]

/-- The big-endian value of the four bytes at offsets 18 to 21 of a file. -/
def track_length_field (bytes : List Nat) : Nat :=
  bytes.getD 18 0 * 16777216 + bytes.getD 19 0 * 65536 + bytes.getD 20 0 * 256
    + bytes.getD 21 0

/-- The layout of one channel event in a track, after the specification:
`varlen(deltaTicks) status data1 [data2]`, the second data byte left out iff
`(status & 0xF0)` is 0xC0 or 0xD0. -/
def event_layout (delta status data1 data2 : Nat) : List Nat :=
  varlen_bytes delta ++ [status, data1] ++
    (if (status &&& 0xF0) = 0xC0 ∨ (status &&& 0xF0) = 0xD0 then [] else [data2])

/-- A packet that is a Note-On with non-zero velocity: status nibble 0x90 and a
second data byte above 0. -/
def is_note_on (p : UsbPacket) : Prop :=
  ((p.b1 % 256) &&& 0xF0) = 0x90 ∧ p.b3 % 256 > 0

instance (p : UsbPacket) : Decidable (is_note_on p) := by
  unfold is_note_on; infer_instance

/-- A sample transfer of two packets: a Note-On on channel 0 (note 60, velocity 100)
at 10 s and, half a second later, a Note-On of the same note with velocity 0. -/
def sample_notes : Transfer :=
  ⟨0, 8, [0x09, 0x90, 60, 100, 0x09, 0x90, 60, 0],
    [(⟨10, 0⟩, ⟨10, 0⟩), (⟨10, 500000000⟩, ⟨10, 500000000⟩)]⟩

/-- A sample transfer of one packet: a Control-Change on channel 0 at 9 s. -/
def sample_control : Transfer :=
  ⟨0, 4, [0x0B, 0xB0, 7, 100], [(⟨9, 0⟩, ⟨9, 0⟩)]⟩

/-! ## The serial-stream recorder of `midirec.c` (`main`) -/

/-- The header chunk and the start of the track chunk as `midirec.c` writes them
(lines 64-73), one `fputc` per byte. -/
def midirec_begin (midi_f : FILE) : FILE × Nat :=
  let f := midi_f |> fputc 0x4D |> fputc 0x54 |> fputc 0x68 |> fputc 0x64
  let f := f |> fputc 0x00 |> fputc 0x00 |> fputc 0x00 |> fputc 0x06
  let f := f |> fputc 0x00 |> fputc 0x00
  let f := f |> fputc 0x00 |> fputc 0x01
  let f := f |> fputc ((ppq >>> 8) &&& 0xFF) |> fputc (ppq &&& 0xFF)
  let f := f |> fputc 0x4D |> fputc 0x54 |> fputc 0x72 |> fputc 0x6B
  let track_len_pos := ftell f
  let f := f |> fputc 0x00 |> fputc 0x00 |> fputc 0x00 |> fputc 0x00
  (f, track_len_pos)

/-- The variables of the assembler loop of `midirec.c` that live across bytes:
`status_byte`, `data[0]`, `data[1]`, `data_count` and `last_time`, with the output
stream. -/
structure AsmState where
  midi_f : FILE
  status_byte : Nat
  data0 : Nat
  data1 : Nat
  data_count : Nat
  last_time : timespec
deriving DecidableEq, Repr

/-- One byte of the serial stream with the reading `clock_gettime` returns if a
message is completed by this byte. -/
structure SerialByte where
  byte : Nat
  now : timespec
deriving DecidableEq, Repr, Inhabited

/-- One round of the byte loop of `midirec.c` (lines 87-121); the terminal output is
left out. -/
def midirec_byte (st : AsmState) (b : SerialByte) : AsmState :=
  let byte := b.byte % 256
  if byte &&& 0x80 ≠ 0 then { st with status_byte := byte, data_count := 0 }
  else
    let st1 : AsmState :=
      if st.data_count < 2 then
        if st.data_count = 0 then { st with data0 := byte, data_count := 1 }
        else { st with data1 := byte, data_count := 2 }
      else st
    let type := st1.status_byte &&& 0xF0
    let needed := if type = 0xC0 ∨ type = 0xD0 then 1 else 2
    if st1.data_count = needed then
      let ticks := delta_ticks st1.last_time b.now
      let f := write_varlen st1.midi_f ticks
      let type1 := if type = 0x90 ∧ st1.data1 = 0 then 0x80 else type
      let f := fputc (type1 ||| (st1.status_byte &&& 0x0F)) f
      let f := fputc st1.data0 f
      let f := if ¬ (type1 = 0xC0 ∨ type1 = 0xD0) then fputc st1.data1 f else f
      { st1 with midi_f := f, last_time := b.now, data_count := 0 }
    else st1

/-- One call of `snd_rawmidi_read` as `midirec.c` sees it: the return value, the
content of `buf` after the call and the clock readings for its bytes. -/
structure SerialRead where
  n : Int
  buf : List Nat
  clock : List timespec
deriving DecidableEq, Repr

/-- The bytes the loop `for (i = 0; i < n; i++)` visits, none if `n <= 0`. -/
def read_bytes (r : SerialRead) : List SerialByte :=
  if r.n ≤ 0 then []
  else (List.range r.n.toNat).map fun i =>
    { byte := r.buf.getD i 0 % 256, now := r.clock.getD i default }

/-- The state of the assembler when the polling loop of `midirec.c` starts; the
array `data` is not initialised and never read before it is stored to. -/
def midirec_init (midi_f : FILE) (start_time : timespec) : AsmState :=
  { midi_f := midi_f, status_byte := 0, data0 := 0, data1 := 0, data_count := 0,
    last_time := start_time }

/-- The recording part of `main` of `midirec.c` for the reads that arrive until
`g_stop` is set: the stream at `fclose`. -/
def midirec_main (start_time : timespec) (reads : List SerialRead) : FILE :=
  let (f, track_len_pos) := midirec_begin fopen_wb
  let st := reads.foldl
    (fun st r => (read_bytes r).foldl midirec_byte st) (midirec_init f start_time)
  record_finish st.midi_f track_len_pos

/-- The bytes the loops of `midirec.c` visit for a sequence of reads, in order. -/
def visited_bytes (reads : List SerialRead) : List SerialByte :=
  (reads.map read_bytes).flatten

/-! ## The player of `main.c` (`do_play`) -/

/-- What one round of the event loop of `do_play` does: the delta-time it read, the
`timespec` it handed to `nanosleep` (if it slept) and the packet it handed to
`libusb_bulk_transfer` (if it sent one). -/
structure PlayIter where
  delta : Nat
  slept : Option (Nat × Nat)
  sent : Option (List Nat)
deriving DecidableEq, Repr

/-- The milliseconds `int ms = delta * 500 / ppq`, the product in 32-bit unsigned
arithmetic. -/
def playback_ms (delta : Nat) : Nat := (delta * 500 % 4294967296) / ppq

/-- The `timespec` of the delay before an event (`main.c` 150-154), none for a zero
delta-time. -/
def play_delay (delta : Nat) : Option (Nat × Nat) :=
  if delta > 0 then
    let ms := playback_ms delta
    some (ms / 1000, (ms % 1000) * 1000000)
  else none

/-- The conversion of an `fgetc` result to `uint8_t`: `EOF`, which is -1, becomes
0xFF. -/
def to_uint8 (c : Option Nat) : Nat :=
  match c with
  | some b => b % 256
  | none => 255

/-- The `fgetc` result as the `int` offset handed to `fseek`: `EOF` is -1. -/
def to_offset (c : Option Nat) : Int :=
  match c with
  | some b => (b : Int)
  | none => -1

/-- One round of the event loop of `do_play` (`main.c` 149-183) with `g_stop` clear:
what the round did, and the stream for the next round, or `none` when the round
leaves the loop (`break` at `EOF`, `goto track_end` at End-Of-Track). -/
def play_iter (f : FILE) : PlayIter × Option FILE :=
  let (delta, f1) := read_varlen f
  let slept := play_delay delta
  match fgetc f1 with
  | (none, _) => ({ delta := delta, slept := slept, sent := none }, none)
  | (some status, f2) =>
    if status = 0xFF then
      let (meta, f3) := fgetc f2
      let (len, f4) := fgetc f3
      if meta = some 0x2F then ({ delta := delta, slept := slept, sent := none }, none)
      else
        ({ delta := delta, slept := slept, sent := none }, some (fseek_cur f4 (to_offset len)))
    else
      let cin := (status >>> 4) % 256
      if (status &&& 0xF0) = 0xC0 ∨ (status &&& 0xF0) = 0xD0 then
        let (c2, f3) := fgetc f2
        ({ delta := delta, slept := slept,
           sent := some [cin, status % 256, to_uint8 c2, 0] }, some f3)
      else
        let (c2, f3) := fgetc f2
        let (c3, f4) := fgetc f3
        ({ delta := delta, slept := slept,
           sent := some [cin, status % 256, to_uint8 c2, to_uint8 c3] }, some f4)

/-- The event loop of `do_play` (`main.c` 148-184) with `g_stop` clear, for at most
`fuel` rounds: the rounds in order, or `none` when the loop has not ended within
`fuel` rounds. -/
def play_loop : Nat → FILE → Option (List PlayIter)
  | 0, _ => none
  | fuel + 1, f =>
    match play_iter f with
    | (it, none) => some [it]
    | (it, some g) => (play_loop fuel g).map (fun its => it :: its)

/-- One pass of `do_play` over a file (`main.c` 145-184): the stream is opened,
positioned at offset 14 and moved on by 8, then the event loop runs. -/
def do_play_pass (fuel : Nat) (bytes : List Nat) : Option (List PlayIter) :=
  play_loop fuel (fseek_cur (fseek_set (fopen_rb bytes) 14) 8)

/-- The packets one pass hands to the device, each with the delta-time read before
it. -/
def sent_events (its : List PlayIter) : List (Nat × List Nat) :=
  its.filterMap fun it => it.sent.map fun pkt => (it.delta, pkt)

/-! ## Recorded events and the rounds that play them -/

/-- A channel event with its delta-time, as the recorder stores it and the player
reads it back. -/
structure TimedEvent where
  delta : Nat
  status : Nat
  data1 : Nat
  data2 : Nat
deriving DecidableEq, Repr

/-- The file the writing steps of the recorder leave when they are run for a given
sequence of events: header and track start, the Set-Tempo meta event, one
`write_event` per event, then End-Of-Track and the length patch. -/
def smf_written (events : List TimedEvent) : FILE :=
  let (f, track_len_pos) := record_begin fopen_wb
  let f := write_tempo f
  let f := events.foldl (fun g e => write_event g e.delta e.status e.data1 e.data2) f
  record_finish f track_len_pos

/-- The bytes of a sequence of events in the track layout of the specification. -/
def events_layout (events : List TimedEvent) : List Nat :=
  (events.map fun e => event_layout e.delta e.status e.data1 e.data2).flatten

/-- The events `do_record` stores for the packets that arrive once recording has
started: one per packet whose code index number is in 0x8..0xE, with the ticks since
the previous stored event, whose clock reading is `last`. -/
def recorded_from (last : timespec) : List UsbPacket → List TimedEvent
  | [] => []
  | p :: ps =>
    if (p.b0 &&& 0x0F) % 256 ≥ 0x8 ∧ (p.b0 &&& 0x0F) % 256 ≤ 0xE then
      ⟨delta_ticks last p.now, p.b1 % 256, p.b2 % 256, p.b3 % 256⟩
        :: recorded_from p.now ps
    else recorded_from last ps

/-- The events `do_record` stores for a packet sequence: nothing until the first
packet with a code index number in 0x8..0xE that is a Note-On with non-zero velocity,
then that packet and what `recorded_from` gives for the packets behind it. -/
def recorded : List UsbPacket → List TimedEvent
  | [] => []
  | p :: ps =>
    if ((p.b0 &&& 0x0F) % 256 ≥ 0x8 ∧ (p.b0 &&& 0x0F) % 256 ≤ 0xE) ∧ is_note_on p then
      ⟨delta_ticks p.start p.now, p.b1 % 256, p.b2 % 256, p.b3 % 256⟩
        :: recorded_from p.now ps
    else recorded ps

/-- A sample sequence of events: a Note-On, the same note with velocity 0 after 480
ticks, and a Program-Change on channel 3 after 96 more ticks. -/
def sample_events : List TimedEvent :=
  [⟨0, 0x90, 60, 100⟩, ⟨480, 0x90, 60, 0⟩, ⟨96, 0xC3, 10, 0⟩]

/-- The round of the player that reproduces an event: the delta-time, the delay it
asks for, and the packet with the status byte, the first data byte and the second
data byte if the event has one (0 otherwise). -/
def event_round (e : TimedEvent) : PlayIter :=
  { delta := e.delta,
    slept := play_delay e.delta,
    sent := some [e.status >>> 4, e.status, e.data1,
      if (e.status &&& 0xF0) = 0xC0 ∨ (e.status &&& 0xF0) = 0xD0 then 0 else e.data2] }

/-- A round of the player that reads a zero delta-time and a meta event: no delay, no
packet. -/
def meta_round : PlayIter := { delta := 0, slept := none, sent := none }

/-! ## Notions the later claims speak of -/

/-- A packet on which `do_record` starts recording when it is still waiting: its code
index number is in 0x8..0xE (the test of `main.c` line 77) and it is a Note-On with
non-zero velocity (the test of line 79). -/
def starts_recording (p : UsbPacket) : Prop :=
  ((p.b0 &&& 0x0F) % 256 ≥ 0x8 ∧ (p.b0 &&& 0x0F) % 256 ≤ 0xE) ∧ is_note_on p

instance (p : UsbPacket) : Decidable (starts_recording p) := by
  unfold starts_recording; infer_instance

/-- The round of `do_play` that starts at stream `f` parses an End-Of-Track meta
event: behind the delta-time it reads the status byte 0xFF and the kind byte 0x2F. -/
def parses_end_of_track (f : FILE) : Prop :=
  (fgetc (read_varlen f).2).1 = some 0xFF ∧
  (fgetc (fgetc (read_varlen f).2).2).1 = some 0x2F

/-- The streams at which the rounds of `play_loop` start, in order, for at most `fuel`
rounds. -/
def play_streams : Nat → FILE → List FILE
  | 0, _ => []
  | fuel + 1, f =>
    match (play_iter f).2 with
    | none => [f]
    | some g => f :: play_streams fuel g

/-- The bytes the specification expects in the file for a running status `S` of a
two-data-byte message followed by groups of two data bytes: one event per group, with
the ticks since the previous event (`last` is its clock reading), the status `S`, or
`0x80 | channel` for a Note-On with velocity 0, and the two data bytes. -/
def running_two (S : Nat) (last : timespec) : List (SerialByte × SerialByte) → List Nat
  | [] => []
  | (a, b) :: groups =>
    varlen_bytes (delta_ticks last b.now)
      ++ [if (S &&& 0xF0) = 0x90 ∧ b.byte = 0 then 0x80 ||| (S &&& 0x0F) else S,
          a.byte, b.byte]
      ++ running_two S b.now groups

/-- The bytes the specification expects in the file for a running status `S` of a
one-data-byte message (Program-Change, Channel-Pressure) followed by single data
bytes: one event per byte, with the ticks since the previous event. -/
def running_one (S : Nat) (last : timespec) : List SerialByte → List Nat
  | [] => []
  | a :: groups =>
    varlen_bytes (delta_ticks last a.now) ++ [S, a.byte] ++ running_one S a.now groups

/-- The bytes of the serial stream for groups of two data bytes, in order. -/
def group_bytes : List (SerialByte × SerialByte) → List SerialByte
  | [] => []
  | (a, b) :: groups => a :: b :: group_bytes groups

/-! ## The delta-times handed to `write_varlen`

The scratch array of `write_varlen` has four slots, which suffice for values below
`2 ^ 28`. The statements about recordings are made for runs in which every delta-time
handed to `write_varlen` is in that range; the definitions below name those
delta-times. -/

/-- The delta-times `do_record` hands to `write_varlen` for a packet sequence, those
of the events it stores, are all below `2 ^ 28`. -/
def deltas_in_bounds (packets : List UsbPacket) : Prop :=
  ∀ e ∈ recorded packets, e.delta < 2 ^ 28

instance (packets : List UsbPacket) : Decidable (deltas_in_bounds packets) := by
  unfold deltas_in_bounds; infer_instance

/-- A packet in the wire format of the specification: the code index number, the low
nibble of byte 0, duplicates the high nibble of the status byte. -/
def in_wire_format (p : UsbPacket) : Prop :=
  (p.b0 &&& 0x0F) % 256 = (p.b1 % 256) >>> 4

instance (p : UsbPacket) : Decidable (in_wire_format p) := by
  unfold in_wire_format; infer_instance

/-- The round of the byte loop of `midirec.c` for byte `b` from state `st` completes a
message: the byte is a data byte (line 88) and with it `data_count` equals `needed`
(lines 90-93). -/
def completes_message (st : AsmState) (b : SerialByte) : Prop :=
  (b.byte % 256) &&& 0x80 = 0 ∧
  (if st.data_count < 2 then st.data_count + 1 else st.data_count) =
    (if (st.status_byte &&& 0xF0) = 0xC0 ∨ (st.status_byte &&& 0xF0) = 0xD0 then 1 else 2)

instance (st : AsmState) (b : SerialByte) : Decidable (completes_message st b) := by
  unfold completes_message; infer_instance

/-- The delta-times the byte loop of `midirec.c` hands to `write_varlen` for a byte
sequence, from state `st` on, in order: one for each round that completes a message. -/
def midirec_ticks : AsmState → List SerialByte → List Nat
  | _, [] => []
  | st, b :: bs =>
    (if completes_message st b then [delta_ticks st.last_time b.now] else [])
      ++ midirec_ticks (midirec_byte st b) bs

/-- The delta-times `main` of `midirec.c` hands to `write_varlen` for the reads that
arrive until `g_stop` is set. -/
def midirec_deltas (start_time : timespec) (reads : List SerialRead) : List Nat :=
  midirec_ticks (midirec_init (midirec_begin fopen_wb).1 start_time) (visited_bytes reads)

/-- The delta-times of the events of `running_two`: for each group the ticks since
the previous event. -/
def running_two_ticks (last : timespec) : List (SerialByte × SerialByte) → List Nat
  | [] => []
  | (_, b) :: groups => delta_ticks last b.now :: running_two_ticks b.now groups

/-- The delta-times of the events of `running_one`: for each data byte the ticks since
the previous event. -/
def running_one_ticks (last : timespec) : List SerialByte → List Nat
  | [] => []
  | a :: singles => delta_ticks last a.now :: running_one_ticks a.now singles

/-- A sample read of three serial bytes at 10 s: a Note-On on channel 0 (note 60,
velocity 100). -/
def sample_read : SerialRead :=
  ⟨3, [0x90, 60, 100], [⟨10, 0⟩, ⟨10, 0⟩, ⟨10, 0⟩]⟩

/-! ## Bit masks as arithmetic -/

theorem land_127 (x : Nat) : x &&& 127 = x % 128 := Nat.and_pow_two_sub_one_eq_mod x 7

theorem land_15 (x : Nat) : x &&& 15 = x % 16 := Nat.and_pow_two_sub_one_eq_mod x 4

theorem land_255 (x : Nat) : x &&& 255 = x % 256 := Nat.and_pow_two_sub_one_eq_mod x 8

set_option maxRecDepth 100000 in
theorem land_128_byte : ∀ y < 256, y &&& 128 = y / 128 * 128 := by decide

set_option maxRecDepth 100000 in
theorem land_240_byte : ∀ y < 256, y &&& 240 = y / 16 * 16 := by decide

theorem land_128 (x : Nat) : x &&& 128 = x / 128 % 2 * 128 := by
  have h : x &&& 128 = (x &&& 255) &&& 128 := by
    rw [Nat.land_assoc]; rfl
  rw [h, land_255, land_128_byte _ (Nat.mod_lt _ (by norm_num))]
  omega

theorem land_240 (x : Nat) : x &&& 240 = x / 16 % 16 * 16 := by
  have h : x &&& 240 = (x &&& 255) &&& 240 := by
    rw [Nat.land_assoc]; rfl
  rw [h, land_255, land_240_byte _ (Nat.mod_lt _ (by norm_num))]
  omega

theorem lor_128 (x : Nat) (h : x < 128) : 128 ||| x = 128 + x := by
  have := @Nat.mul_add_lt_is_or 7 x (by simpa using h) 1
  simpa using this.symm

theorem lor_nibble (t c : Nat) (hc : c < 16) : (t * 16) ||| c = t * 16 + c := by
  have := @Nat.mul_add_lt_is_or 4 c (by simpa using hc) t
  rw [mul_comm]; simpa using this.symm

theorem shr_7 (x : Nat) : x >>> 7 = x / 128 := by
  rw [Nat.shiftRight_eq_div_pow]

theorem varlen_accumulate_eq (value c : Nat) :
    varlen_accumulate value c = value * 128 % 4294967296 + c % 128 := by
  unfold varlen_accumulate
  rw [land_127, Nat.shiftLeft_eq]
  have hk : value * 2 ^ 7 % 2 ^ 32 = 2 ^ 7 * (value % 33554432) := by
    norm_num; omega
  rw [hk, ← @Nat.mul_add_lt_is_or 7 (c % 128) (Nat.mod_lt _ (by norm_num))]
  norm_num; omega

/-! ## The encoder -/

theorem write_varlen_loop_append (value : Nat) :
    ∀ buffer, write_varlen_loop value buffer = buffer ++ write_varlen_loop value [] := by
  induction value using Nat.strong_induction_on with
  | _ value ih =>
    intro buffer
    rw [write_varlen_loop, write_varlen_loop.eq_1 value []]
    by_cases h : value >>> 7 > 0
    · have hlt : value >>> 7 < value := by
        rw [shr_7] at h ⊢; omega
      rw [dif_pos h, dif_pos h, ih _ hlt (buffer ++ _), ih _ hlt ([] ++ _)]
      simp
    · rw [dif_neg h, dif_neg h]; simp

theorem write_varlen_loop_lt (value : Nat) (h : value < 128) :
    write_varlen_loop value [] = [] := by
  rw [write_varlen_loop, dif_neg]
  rw [shr_7]; omega

theorem write_varlen_loop_ge (value : Nat) (h : 128 ≤ value) :
    write_varlen_loop value [] =
      (128 + value / 128 % 128) :: write_varlen_loop (value / 128) [] := by
  rw [write_varlen_loop, dif_pos (by rw [shr_7]; omega), write_varlen_loop_append]
  rw [shr_7, land_127, lor_128 _ (Nat.mod_lt _ (by norm_num))]
  have : (128 + value / 128 % 128) % 256 = 128 + value / 128 % 128 := by omega
  rw [this]; simp

theorem varlen_bytes_eq (value : Nat) :
    varlen_bytes value = (write_varlen_loop value []).reverse ++ [value % 128] := by
  unfold varlen_bytes write_varlen_buffer
  rw [write_varlen_loop_append, land_127]
  have : value % 128 % 256 = value % 128 := by omega
  rw [this]; simp

theorem varlen_bytes_lt (value : Nat) (h : value < 128) : varlen_bytes value = [value] := by
  rw [varlen_bytes_eq, write_varlen_loop_lt value h, Nat.mod_eq_of_lt h]; rfl

theorem write_varlen_loop_length (k : Nat) :
    ∀ value, value < 128 ^ (k + 1) → (write_varlen_loop value []).length ≤ k := by
  induction k with
  | zero =>
    intro value h
    rw [write_varlen_loop_lt value (by simpa using h)]; simp
  | succ k ih =>
    intro value h
    by_cases h128 : value < 128
    · rw [write_varlen_loop_lt value h128]; simp
    · rw [write_varlen_loop_ge value (by omega), List.length_cons]
      have hdiv : value / 128 < 128 ^ (k + 1) := by
        rw [Nat.div_lt_iff_lt_mul (by norm_num)]
        calc value < 128 ^ (k + 1 + 1) := h
          _ = 128 ^ (k + 1) * 128 := by rw [pow_succ]
      have := ih _ hdiv
      omega

theorem write_varlen_loop_mem (value : Nat) :
    ∀ b ∈ write_varlen_loop value [], 128 ≤ b ∧ b < 256 := by
  induction value using Nat.strong_induction_on with
  | _ value ih =>
    intro b hb
    by_cases h128 : value < 128
    · rw [write_varlen_loop_lt value h128] at hb; simp at hb
    · rw [write_varlen_loop_ge value (by omega), List.mem_cons] at hb
      rcases hb with rfl | hb
      · omega
      · exact ih (value / 128) (by omega) b hb

theorem write_varlen_loop_getLast (value : Nat) :
    ∀ b, (write_varlen_loop value []).getLast? = some b → 128 < b := by
  induction value using Nat.strong_induction_on with
  | _ value ih =>
    intro b hb
    by_cases h128 : value < 128
    · rw [write_varlen_loop_lt value h128] at hb; simp at hb
    · rw [write_varlen_loop_ge value (by omega), List.getLast?_cons] at hb
      by_cases hq : value / 128 < 128
      · rw [write_varlen_loop_lt _ hq] at hb
        simp at hb
        omega
      · cases hl : (write_varlen_loop (value / 128) []).getLast? with
        | none =>
          rw [List.getLast?_eq_none_iff] at hl
          rw [write_varlen_loop_ge _ (by omega)] at hl
          simp at hl
        | some c =>
          rw [hl] at hb
          simp at hb
          subst hb
          exact ih (value / 128) (by omega) c hl

theorem write_varlen_loop_value (value : Nat) :
    (write_varlen_loop value []).reverse.foldl (fun acc b => acc * 128 + (b &&& 0x7F)) 0
      = value / 128 := by
  induction value using Nat.strong_induction_on with
  | _ value ih =>
    by_cases h128 : value < 128
    · rw [write_varlen_loop_lt value h128]
      simp; omega
    · rw [write_varlen_loop_ge value (by omega), List.reverse_cons, List.foldl_append,
        ih (value / 128) (by omega)]
      simp only [List.foldl_cons, List.foldl_nil, land_127]
      omega

theorem write_varlen_loop_accumulate (value : Nat) (h : value < 4294967296) :
    (write_varlen_loop value []).reverse.foldl varlen_accumulate 0 = value / 128 := by
  induction value using Nat.strong_induction_on with
  | _ value ih =>
    by_cases h128 : value < 128
    · rw [write_varlen_loop_lt value h128]
      simp; omega
    · rw [write_varlen_loop_ge value (by omega), List.reverse_cons, List.foldl_append,
        ih (value / 128) (by omega) (by omega)]
      simp only [List.foldl_cons, List.foldl_nil, varlen_accumulate_eq]
      omega

theorem varlen_bytes_lt_256 (value : Nat) : ∀ b ∈ varlen_bytes value, b < 256 := by
  intro b hb
  rw [varlen_bytes_eq, List.mem_append, List.mem_reverse] at hb
  rcases hb with hb | hb
  · exact (write_varlen_loop_mem value b hb).2
  · simp at hb; omega

/-! ## Writing at the end of a stream -/

theorem fputc_at_end (c : Nat) (l : List Nat) :
    fputc c (at_end l) = at_end (l ++ [c % 256]) := by
  simp [fputc, at_end]

theorem foldl_fputc_at_end (s : List Nat) :
    ∀ l, s.foldl (fun g c => fputc c g) (at_end l) = at_end (l ++ s.map (fun c => c % 256)) := by
  induction s with
  | nil => intro l; simp
  | cons c s ih =>
    intro l
    rw [List.foldl_cons, fputc_at_end, ih]
    simp

theorem fputs_at_end (s l : List Nat) :
    fputs s (at_end l) = at_end (l ++ s.map (fun c => c % 256)) :=
  foldl_fputc_at_end s l

theorem write_varlen_at_end (l : List Nat) (value : Nat) :
    write_varlen (at_end l) value = at_end (l ++ varlen_bytes value) := by
  have hmap : (varlen_bytes value).map (fun c => c % 256) = varlen_bytes value := by
    conv_rhs => rw [← List.map_id (varlen_bytes value)]
    apply List.map_congr_left
    intro b hb
    exact Nat.mod_eq_of_lt (varlen_bytes_lt_256 value b hb)
  unfold write_varlen
  rw [foldl_fputc_at_end, hmap]

/-! ## Reading from a stream -/

theorem fgetc_at (pre rest : List Nat) (c : Nat) :
    fgetc (at_pos (pre ++ c :: rest) pre.length)
      = (some c, at_pos (pre ++ c :: rest) (pre.length + 1)) := by
  have h : (pre ++ c :: rest)[pre.length]? = some c := by
    rw [List.getElem?_append_right (Nat.le_refl _)]; simp
  simp [fgetc, at_pos, h]

theorem fgetc_eof (l : List Nat) (n : Nat) (h : l.length ≤ n) :
    fgetc (at_pos l n) = (none, at_pos l n) := by
  simp [fgetc, at_pos, List.getElem?_eq_none h]

theorem read_varlen_loop_eof (f g : FILE) (value : Nat) (h : fgetc f = (none, g)) :
    read_varlen_loop f value = (0, g) := by
  rw [read_varlen_loop]
  split
  · next g1 h1 => rw [h] at h1; simp at h1; rw [h1]
  · next c1 g1 h1 => rw [h] at h1; simp at h1

theorem read_varlen_loop_cont (f g : FILE) (value c : Nat) (h : fgetc f = (some c, g))
    (hc : c &&& 0x80 ≠ 0) :
    read_varlen_loop f value = read_varlen_loop g (varlen_accumulate value c) := by
  rw [read_varlen_loop]
  split
  · next g1 h1 => rw [h] at h1; simp at h1
  · next c1 g1 h1 =>
    rw [h] at h1; simp at h1
    obtain ⟨rfl, rfl⟩ := h1
    rw [if_pos hc]

theorem read_varlen_loop_last (f g : FILE) (value c : Nat) (h : fgetc f = (some c, g))
    (hc : c &&& 0x80 = 0) :
    read_varlen_loop f value = (varlen_accumulate value c, g) := by
  rw [read_varlen_loop]
  split
  · next g1 h1 => rw [h] at h1; simp at h1
  · next c1 g1 h1 =>
    rw [h] at h1; simp at h1
    obtain ⟨rfl, rfl⟩ := h1
    rw [if_neg (by simp [hc])]

theorem read_varlen_loop_run (cs : List Nat) (hcs : ∀ c ∈ cs, c &&& 0x80 ≠ 0) :
    ∀ (pre rest : List Nat) (value : Nat),
      read_varlen_loop (at_pos (pre ++ cs ++ rest) pre.length) value
        = read_varlen_loop (at_pos (pre ++ cs ++ rest) (pre.length + cs.length))
            (cs.foldl varlen_accumulate value) := by
  induction cs with
  | nil => intro pre rest value; simp
  | cons c cs ih =>
    intro pre rest value
    have hc : c &&& 0x80 ≠ 0 := hcs c (List.mem_cons_self _ _)
    have hfile : pre ++ c :: cs ++ rest = pre ++ c :: (cs ++ rest) := by simp
    have hfile2 : pre ++ c :: (cs ++ rest) = (pre ++ [c]) ++ cs ++ rest := by simp
    rw [hfile, read_varlen_loop_cont _ _ value c (fgetc_at pre (cs ++ rest) c) hc, hfile2]
    have hlen : pre.length + 1 = (pre ++ [c]).length := by simp
    rw [hlen, ih (fun x hx => hcs x (List.mem_cons_of_mem _ hx)) (pre ++ [c]) rest]
    simp [Nat.add_assoc, Nat.add_comm 1]

theorem cont_bit_of_ge (b : Nat) (h : 128 ≤ b ∧ b < 256) : b &&& 0x80 ≠ 0 := by
  have : b &&& 128 = b / 128 % 2 * 128 := land_128 b
  show b &&& 128 ≠ 0
  omega

theorem cont_bit_of_lt (b : Nat) (h : b < 128) : b &&& 0x80 = 0 := by
  have : b &&& 128 = b / 128 % 2 * 128 := land_128 b
  show b &&& 128 = 0
  omega

theorem read_varlen_varlen_bytes (value : Nat) (h : value < 4294967296)
    (pre rest : List Nat) :
    read_varlen (at_pos (pre ++ varlen_bytes value ++ rest) pre.length)
      = (value, at_pos (pre ++ varlen_bytes value ++ rest)
          (pre.length + (varlen_bytes value).length)) := by
  unfold read_varlen
  rw [varlen_bytes_eq]
  have hfile : pre ++ ((write_varlen_loop value []).reverse ++ [value % 128]) ++ rest
      = pre ++ (write_varlen_loop value []).reverse ++ (value % 128 :: rest) := by simp
  rw [hfile, read_varlen_loop_run _
    (fun c hc => cont_bit_of_ge c (write_varlen_loop_mem value c (List.mem_reverse.mp hc))),
    write_varlen_loop_accumulate value h]
  have hlen : pre.length + (write_varlen_loop value []).reverse.length
      = (pre ++ (write_varlen_loop value []).reverse).length := by simp
  rw [hlen, read_varlen_loop_last _ _ _ _ (fgetc_at _ rest (value % 128))
    (cont_bit_of_lt _ (Nat.mod_lt _ (by norm_num))), varlen_accumulate_eq]
  congr 1
  · omega
  · simp [Nat.add_assoc]

theorem read_varlen_loop_exhausted (n : Nat) :
    ∀ (f : FILE) (value : Nat), f.data.length - f.pos ≤ n →
      (∀ i c, f.pos ≤ i → f.data[i]? = some c → c &&& 0x80 ≠ 0) →
      (read_varlen_loop f value).1 = 0 := by
  induction n with
  | zero =>
    intro f value hn _
    have hnone : f.data[f.pos]? = none := List.getElem?_eq_none (by omega)
    rw [read_varlen_loop_eof f f value (by simp [fgetc, hnone])]
  | succ n ih =>
    intro f value hn hbits
    cases hget : f.data[f.pos]? with
    | none => rw [read_varlen_loop_eof f f value (by simp [fgetc, hget])]
    | some c =>
      have hlt : f.pos < f.data.length := (List.getElem?_eq_some_iff.mp hget).1
      rw [read_varlen_loop_cont f { f with pos := f.pos + 1 } value c
        (by simp [fgetc, hget]) (hbits f.pos c (Nat.le_refl _) hget)]
      apply ih
      · simp only; omega
      · intro i d hi hd
        exact hbits i d (by simp only at hi; omega) hd

/-! ## The codec claims -/

/-- C1 (varlen round-trip): for every value `v` with `0 <= v <= 0x0FFFFFFF`, when
`write_varlen` has written `v` behind any content `pre` and any bytes `rest` follow,
`read_varlen` started where the writer started returns `v` and stops exactly where
the writer stopped: it consumes the emitted bytes, no more and no fewer. -/
theorem varlen_round_trip (v : Nat) (hv : v ≤ 0x0FFFFFFF) (pre rest : List Nat) :
    read_varlen (at_pos ((write_varlen (at_end pre) v).data ++ rest) pre.length)
      = (v, at_pos ((write_varlen (at_end pre) v).data ++ rest)
          (write_varlen (at_end pre) v).pos) := by
  rw [write_varlen_at_end]
  simp only [at_end]
  rw [read_varlen_varlen_bytes v (by omega) pre rest]
  simp

theorem varlen_round_trip_witness :
    300 ≤ 0x0FFFFFFF ∧
    read_varlen (at_pos ((write_varlen (at_end [7]) 300).data ++ [9]) [7].length)
      = (300, at_pos ((write_varlen (at_end [7]) 300).data ++ [9])
          (write_varlen (at_end [7]) 300).pos) :=
  ⟨by decide, varlen_round_trip 300 (by decide) [7] [9]⟩

/-- C4 (minimal encoding): for every value `v < 2^28`, `write_varlen` appends the
bytes `varlen_bytes v`; they are between 1 and 4 bytes, every byte except the last
has bit 0x80 set, the last byte has it clear, the low 7 bits of the bytes read
most-significant-first give back `v`, and the first byte is not 0x80; in particular
0 is written as `[0x00]`, 127 as `[0x7F]` and 128 as `[0x81, 0x00]`. -/
theorem write_varlen_minimal (v : Nat) (hv : v < 2 ^ 28) :
    (∀ pre, write_varlen (at_end pre) v = at_end (pre ++ varlen_bytes v)) ∧
    1 ≤ (varlen_bytes v).length ∧ (varlen_bytes v).length ≤ 4 ∧
    (∀ b ∈ (varlen_bytes v).dropLast, b &&& 0x80 = 0x80) ∧
    (∃ b, (varlen_bytes v).getLast? = some b ∧ b &&& 0x80 = 0) ∧
    (varlen_bytes v).foldl (fun acc b => acc * 128 + (b &&& 0x7F)) 0 = v ∧
    (varlen_bytes v).head? ≠ some 0x80 ∧
    varlen_bytes 0 = [0x00] ∧ varlen_bytes 127 = [0x7F] ∧ varlen_bytes 128 = [0x81, 0x00] := by
  refine ⟨fun pre => write_varlen_at_end pre v, ?_, ?_, ?_, ?_, ?_, ?_, ?_, ?_, ?_⟩
  · rw [varlen_bytes_eq]; simp
  · have := write_varlen_loop_length 3 v (by norm_num at hv ⊢; exact hv)
    rw [varlen_bytes_eq]; simp; omega
  · intro b hb
    rw [varlen_bytes_eq, List.dropLast_concat, List.mem_reverse] at hb
    have hb2 := write_varlen_loop_mem v b hb
    have : b &&& 128 = b / 128 % 2 * 128 := land_128 b
    show b &&& 128 = 128
    omega
  · refine ⟨v % 128, ?_, cont_bit_of_lt _ (Nat.mod_lt _ (by norm_num))⟩
    rw [varlen_bytes_eq]; simp
  · rw [varlen_bytes_eq, List.foldl_append, write_varlen_loop_value]
    simp only [List.foldl_cons, List.foldl_nil, land_127]
    omega
  · rw [varlen_bytes_eq]
    intro hhead
    cases hl : (write_varlen_loop v []).reverse with
    | nil =>
      rw [hl] at hhead
      simp at hhead
      omega
    | cons x xs =>
      rw [hl] at hhead
      simp at hhead
      have hlast : (write_varlen_loop v []).getLast? = some x := by
        rw [← List.head?_reverse, hl]; rfl
      have := write_varlen_loop_getLast v x hlast
      omega
  · exact varlen_bytes_lt 0 (by norm_num)
  · exact varlen_bytes_lt 127 (by norm_num)
  · rw [varlen_bytes_eq, write_varlen_loop_ge 128 (by norm_num),
      write_varlen_loop_lt _ (by norm_num)]
    rfl

theorem write_varlen_minimal_witness :
    (200000 : Nat) < 2 ^ 28 ∧
    ((∀ pre, write_varlen (at_end pre) 200000 = at_end (pre ++ varlen_bytes 200000)) ∧
    1 ≤ (varlen_bytes 200000).length ∧ (varlen_bytes 200000).length ≤ 4 ∧
    (∀ b ∈ (varlen_bytes 200000).dropLast, b &&& 0x80 = 0x80) ∧
    (∃ b, (varlen_bytes 200000).getLast? = some b ∧ b &&& 0x80 = 0) ∧
    (varlen_bytes 200000).foldl (fun acc b => acc * 128 + (b &&& 0x7F)) 0 = 200000 ∧
    (varlen_bytes 200000).head? ≠ some 0x80 ∧
    varlen_bytes 0 = [0x00] ∧ varlen_bytes 127 = [0x7F] ∧
    varlen_bytes 128 = [0x81, 0x00]) :=
  ⟨by norm_num, write_varlen_minimal 200000 (by norm_num)⟩

/-- C5 (exhausted source): for every stream whose bytes from the current position on
all have the continuation bit 0x80 set, the empty remainder included, `read_varlen`
returns 0, and so does its loop whatever value it has accumulated so far. -/
theorem read_varlen_exhausted (f : FILE)
    (h : ∀ i c, f.pos ≤ i → f.data[i]? = some c → c &&& 0x80 ≠ 0) :
    (read_varlen f).1 = 0 ∧ ∀ value, (read_varlen_loop f value).1 = 0 :=
  ⟨read_varlen_loop_exhausted _ f 0 (Nat.le_refl _) h,
   fun value => read_varlen_loop_exhausted _ f value (Nat.le_refl _) h⟩

theorem read_varlen_exhausted_witness :
    (∀ i c, (at_pos [0x05, 0x81, 0xFF] 1).pos ≤ i →
      (at_pos [0x05, 0x81, 0xFF] 1).data[i]? = some c → c &&& 0x80 ≠ 0) ∧
    ((read_varlen (at_pos [0x05, 0x81, 0xFF] 1)).1 = 0 ∧
      ∀ value, (read_varlen_loop (at_pos [0x05, 0x81, 0xFF] 1) value).1 = 0) :=
  have hyp : ∀ i c, (at_pos [0x05, 0x81, 0xFF] 1).pos ≤ i →
      (at_pos [0x05, 0x81, 0xFF] 1).data[i]? = some c → c &&& 0x80 ≠ 0 := by
    intro i c hi hc
    simp only [at_pos] at hi hc
    match i, hi with
    | 1, _ => simp at hc; subst hc; decide
    | 2, _ => simp at hc; subst hc; decide
    | (n + 3), _ => simp at hc
  ⟨hyp, read_varlen_exhausted _ hyp⟩

/-! ## The bytes the recorder writes -/

theorem fopen_wb_at_end : fopen_wb = at_end [] := rfl

theorem record_begin_at_end :
    record_begin (at_end []) = (at_end (smf_preamble ++ [0, 0, 0, 0]), 18) := by
  have h1 : (ppq >>> 8) &&& 0xFF = 1 := by decide
  have h2 : ppq &&& 0xFF = 0xE0 := by decide
  simp only [record_begin, h1, h2, fputs_at_end, fputc_at_end, ftell]
  simp [at_end, smf_preamble, MThd, MTrk]

theorem midirec_begin_at_end :
    midirec_begin (at_end []) = (at_end (smf_preamble ++ [0, 0, 0, 0]), 18) := by
  have h1 : (ppq >>> 8) &&& 0xFF = 1 := by decide
  have h2 : ppq &&& 0xFF = 0xE0 := by decide
  simp only [midirec_begin, h1, h2, fputc_at_end, ftell]
  simp [at_end, smf_preamble, MThd, MTrk]

theorem varlen_bytes_zero : varlen_bytes 0 = [0] := varlen_bytes_lt 0 (by norm_num)

theorem write_tempo_at_end (l : List Nat) :
    write_tempo (at_end l) = at_end (l ++ set_tempo) := by
  simp [write_tempo, write_varlen_at_end, varlen_bytes_zero, fputc_at_end, set_tempo]

theorem range_test_iff_mask (s : Nat) (hs : s < 256) :
    (s ≥ 0xC0 ∧ s ≤ 0xDF) ↔ ((s &&& 0xF0) = 0xC0 ∨ (s &&& 0xF0) = 0xD0) := by
  have : s &&& 240 = s / 16 % 16 * 16 := land_240 s
  show (s ≥ 192 ∧ s ≤ 223) ↔ ((s &&& 240) = 192 ∨ (s &&& 240) = 208)
  omega

theorem write_event_at_end (l : List Nat) (ticks s d1 d2 : Nat) :
    write_event (at_end l) ticks (s % 256) d1 d2
      = at_end (l ++ event_layout ticks (s % 256) (d1 % 256) (d2 % 256)) := by
  have hs : s % 256 < 256 := Nat.mod_lt _ (by norm_num)
  unfold write_event event_layout
  simp only [write_varlen_at_end, fputc_at_end, Nat.mod_mod]
  by_cases hr : s % 256 ≥ 0xC0 ∧ s % 256 ≤ 0xDF
  · rw [if_neg (not_not.mpr hr), if_pos ((range_test_iff_mask _ hs).mp hr)]
    simp
  · rw [if_pos hr, if_neg (fun hm => hr ((range_test_iff_mask _ hs).mpr hm))]
    simp

theorem fputc_overwrite (pre rest : List Nat) (x c : Nat) :
    fputc c (at_pos (pre ++ x :: rest) pre.length)
      = at_pos (pre ++ (c % 256) :: rest) (pre.length + 1) := by
  simp [fputc, at_pos]

theorem to_unsigned_natCast (n : Nat) : to_unsigned (n : Int) = n % 4294967296 := by
  unfold to_unsigned
  omega

theorem record_finish_at_end (head track : List Nat) (a b c d : Nat) :
    record_finish (at_end (head ++ [a, b, c, d] ++ track)) head.length
      = at_pos (head ++ be32 ((track.length + 4) % 4294967296) ++ track ++ end_of_track)
          (head.length + 4) := by
  unfold record_finish
  simp only [write_varlen_at_end, varlen_bytes_zero, fputc_at_end, ftell, fseek_set]
  have hlen : (((at_end (head ++ [a, b, c, d] ++ track ++ [0] ++ [255 % 256] ++ [47 % 256]
      ++ [0 % 256])).pos : Nat) : Int) - (head.length : Int) - 4
      = ((track.length + 4 : Nat) : Int) := by
    simp [at_end]; omega
  rw [hlen, to_unsigned_natCast]
  generalize (track.length + 4) % 4294967296 = len
  have e0 : ({ data := (at_end (head ++ [a, b, c, d] ++ track ++ [0] ++ [255 % 256]
      ++ [47 % 256] ++ [0 % 256])).data, pos := head.length } : FILE)
      = at_pos (head ++ a :: ([b, c, d] ++ track ++ end_of_track)) head.length := by
    simp [at_end, at_pos, end_of_track]
  rw [e0, fputc_overwrite]
  have e1 : head ++ (len >>> 24 &&& 255) % 256 :: ([b, c, d] ++ track ++ end_of_track)
      = (head ++ [(len >>> 24 &&& 255) % 256]) ++ b :: ([c, d] ++ track ++ end_of_track) := by
    simp
  have l1 : head.length + 1 = (head ++ [(len >>> 24 &&& 255) % 256]).length := by simp
  rw [e1, l1, fputc_overwrite]
  have e2 : (head ++ [(len >>> 24 &&& 255) % 256]) ++ (len >>> 16 &&& 255) % 256
        :: ([c, d] ++ track ++ end_of_track)
      = (head ++ [(len >>> 24 &&& 255) % 256, (len >>> 16 &&& 255) % 256])
        ++ c :: ([d] ++ track ++ end_of_track) := by
    simp
  have l2 : (head ++ [(len >>> 24 &&& 255) % 256]).length + 1
      = (head ++ [(len >>> 24 &&& 255) % 256, (len >>> 16 &&& 255) % 256]).length := by simp
  rw [e2, l2, fputc_overwrite]
  have e3 : (head ++ [(len >>> 24 &&& 255) % 256, (len >>> 16 &&& 255) % 256])
        ++ (len >>> 8 &&& 255) % 256 :: ([d] ++ track ++ end_of_track)
      = (head ++ [(len >>> 24 &&& 255) % 256, (len >>> 16 &&& 255) % 256,
          (len >>> 8 &&& 255) % 256]) ++ d :: (track ++ end_of_track) := by
    simp
  have l3 : (head ++ [(len >>> 24 &&& 255) % 256, (len >>> 16 &&& 255) % 256]).length + 1
      = (head ++ [(len >>> 24 &&& 255) % 256, (len >>> 16 &&& 255) % 256,
          (len >>> 8 &&& 255) % 256]).length := by simp
  rw [e3, l3, fputc_overwrite]
  simp [at_pos, be32]

theorem record_packet_ignored (st : RecState) (p : UsbPacket)
    (h : ¬ ((p.b0 &&& 0x0F) % 256 ≥ 0x8 ∧ (p.b0 &&& 0x0F) % 256 ≤ 0xE)) :
    record_packet st p = st := by
  unfold record_packet
  simp only
  rw [if_neg h]

theorem record_packet_waiting (st : RecState) (p : UsbPacket)
    (hst : st.first_note_played = false)
    (h : ¬ (((p.b1 % 256) &&& 0xF0) = 0x90 ∧ p.b3 % 256 > 0)) :
    record_packet st p = st := by
  have hno : ¬ (st.first_note_played = false ∧ ((p.b1 % 256) &&& 0xF0) = 0x90
      ∧ p.b3 % 256 > 0) := fun hc => h hc.2
  unfold record_packet
  simp only [if_neg hno, if_pos hst, ite_self]

theorem record_packet_first (st : RecState) (p : UsbPacket)
    (hcin : (p.b0 &&& 0x0F) % 256 ≥ 0x8 ∧ (p.b0 &&& 0x0F) % 256 ≤ 0xE)
    (hst : st.first_note_played = false)
    (h : ((p.b1 % 256) &&& 0xF0) = 0x90 ∧ p.b3 % 256 > 0) :
    record_packet st p =
      { midi_f := write_event (write_tempo st.midi_f) (delta_ticks p.start p.now)
          (p.b1 % 256) (p.b2 % 256) (p.b3 % 256),
        first_note_played := true, last := p.now } := by
  have hyes : st.first_note_played = false ∧ ((p.b1 % 256) &&& 0xF0) = 0x90
      ∧ p.b3 % 256 > 0 := ⟨hst, h⟩
  unfold record_packet
  simp only []
  rw [if_pos hcin, if_pos hyes]
  rw [if_neg (by simp)]

theorem record_packet_recording (st : RecState) (p : UsbPacket)
    (hcin : (p.b0 &&& 0x0F) % 256 ≥ 0x8 ∧ (p.b0 &&& 0x0F) % 256 ≤ 0xE)
    (hst : st.first_note_played = true) :
    record_packet st p =
      { midi_f := write_event st.midi_f (delta_ticks st.last p.now)
          (p.b1 % 256) (p.b2 % 256) (p.b3 % 256),
        first_note_played := true, last := p.now } := by
  have hno : ¬ (st.first_note_played = false ∧ ((p.b1 % 256) &&& 0xF0) = 0x90
      ∧ p.b3 % 256 > 0) := fun hc => by rw [hst] at hc; exact Bool.noConfusion hc.1
  unfold record_packet
  simp only []
  rw [if_pos hcin, if_neg hno, if_neg (by rw [hst]; exact Bool.noConfusion)]

theorem record_packet_at_end (st : RecState) (p : UsbPacket) (l : List Nat)
    (h : st.midi_f = at_end l) : ∃ l1, (record_packet st p).midi_f = at_end (l ++ l1) := by
  by_cases hcin : (p.b0 &&& 0x0F) % 256 ≥ 0x8 ∧ (p.b0 &&& 0x0F) % 256 ≤ 0xE
  · cases hst : st.first_note_played with
    | true =>
      rw [record_packet_recording st p hcin hst, h, write_event_at_end]
      exact ⟨_, rfl⟩
    | false =>
      by_cases hn : ((p.b1 % 256) &&& 0xF0) = 0x90 ∧ p.b3 % 256 > 0
      · rw [record_packet_first st p hcin hst hn, h, write_tempo_at_end, write_event_at_end]
        exact ⟨set_tempo ++ _, by rw [List.append_assoc]⟩
      · rw [record_packet_waiting st p hst hn]
        exact ⟨[], by rw [h, List.append_nil]⟩
  · rw [record_packet_ignored st p hcin]
    exact ⟨[], by rw [h, List.append_nil]⟩

theorem record_packets_at_end (ps : List UsbPacket) :
    ∀ (st : RecState) (l : List Nat), st.midi_f = at_end l →
      ∃ l1, (ps.foldl record_packet st).midi_f = at_end (l ++ l1) := by
  induction ps with
  | nil => intro st l h; exact ⟨[], by simpa using h⟩
  | cons p ps ih =>
    intro st l h
    obtain ⟨l1, h1⟩ := record_packet_at_end st p l h
    obtain ⟨l2, h2⟩ := ih (record_packet st p) (l ++ l1) h1
    exact ⟨l1 ++ l2, by simpa using h2⟩

theorem do_record_eq_record_stream (transfers : List Transfer) :
    do_record transfers = record_stream (visited_packets transfers) := by
  simp only [do_record, record_stream, visited_packets, List.foldl_flatten, List.foldl_map]

theorem smf_preamble_length : smf_preamble.length = 18 := rfl

theorem record_stream_eq (ps : List UsbPacket) (track : List Nat)
    (h : (ps.foldl record_packet (record_init (at_end (smf_preamble ++ [0, 0, 0, 0])))).midi_f
      = at_end (smf_preamble ++ [0, 0, 0, 0] ++ track)) :
    record_stream ps
      = at_pos (smf_preamble ++ be32 ((track.length + 4) % 4294967296) ++ track ++ end_of_track)
          22 := by
  unfold record_stream
  rw [fopen_wb_at_end, record_begin_at_end]
  simp only
  rw [h]
  exact record_finish_at_end smf_preamble track 0 0 0 0

theorem record_stream_framing (ps : List UsbPacket) :
    ∃ track, record_stream ps
      = at_pos (smf_preamble ++ be32 ((track.length + 4) % 4294967296) ++ track ++ end_of_track)
          22 := by
  obtain ⟨track, h⟩ := record_packets_at_end ps
    (record_init (at_end (smf_preamble ++ [0, 0, 0, 0]))) (smf_preamble ++ [0, 0, 0, 0]) rfl
  exact ⟨track, record_stream_eq ps track h⟩

theorem be32_length (n : Nat) : (be32 n).length = 4 := rfl

theorem track_length_field_eq (n : Nat) (hn : n < 4294967296) (rest : List Nat) :
    track_length_field (smf_preamble ++ be32 n ++ rest) = n := by
  unfold track_length_field
  have e : smf_preamble ++ be32 n ++ rest = smf_preamble ++ (be32 n ++ rest) := by simp
  rw [e, List.getD_append_right _ _ 0 18 (by rw [smf_preamble_length]),
    List.getD_append_right _ _ 0 19 (by rw [smf_preamble_length]; norm_num),
    List.getD_append_right _ _ 0 20 (by rw [smf_preamble_length]; norm_num),
    List.getD_append_right _ _ 0 21 (by rw [smf_preamble_length]; norm_num)]
  simp only [smf_preamble_length, be32, land_255, Nat.shiftRight_eq_div_pow]
  simp
  omega

theorem midirec_byte_at_end (st : AsmState) (b : SerialByte) (l : List Nat)
    (h : st.midi_f = at_end l) : ∃ l1, (midirec_byte st b).midi_f = at_end (l ++ l1) := by
  unfold midirec_byte
  simp only []
  split_ifs <;>
    simp only [h, write_varlen_at_end, fputc_at_end, List.append_assoc] <;>
    first
      | exact ⟨_, rfl⟩
      | exact ⟨[], by rw [List.append_nil]⟩

theorem midirec_bytes_at_end (bs : List SerialByte) :
    ∀ (st : AsmState) (l : List Nat), st.midi_f = at_end l →
      ∃ l1, (bs.foldl midirec_byte st).midi_f = at_end (l ++ l1) := by
  induction bs with
  | nil => intro st l h; exact ⟨[], by simpa using h⟩
  | cons b bs ih =>
    intro st l h
    obtain ⟨l1, h1⟩ := midirec_byte_at_end st b l h
    obtain ⟨l2, h2⟩ := ih (midirec_byte st b) (l ++ l1) h1
    exact ⟨l1 ++ l2, by simpa using h2⟩

theorem midirec_main_eq (start_time : timespec) (reads : List SerialRead)
    (track : List Nat)
    (h : ((visited_bytes reads).foldl midirec_byte
        (midirec_init (at_end (smf_preamble ++ [0, 0, 0, 0])) start_time)).midi_f
      = at_end (smf_preamble ++ [0, 0, 0, 0] ++ track)) :
    midirec_main start_time reads
      = at_pos (smf_preamble ++ be32 ((track.length + 4) % 4294967296) ++ track ++ end_of_track)
          22 := by
  simp only [midirec_main, fopen_wb_at_end, midirec_begin_at_end]
  simp only [visited_bytes, List.foldl_flatten, List.foldl_map] at h
  rw [h]
  exact record_finish_at_end smf_preamble track 0 0 0 0

theorem midirec_main_framing (start_time : timespec) (reads : List SerialRead) :
    ∃ track, midirec_main start_time reads
      = at_pos (smf_preamble ++ be32 ((track.length + 4) % 4294967296) ++ track ++ end_of_track)
          22 := by
  obtain ⟨track, h⟩ := midirec_bytes_at_end (visited_bytes reads)
    (midirec_init (at_end (smf_preamble ++ [0, 0, 0, 0])) start_time)
    (smf_preamble ++ [0, 0, 0, 0]) rfl
  exact ⟨track, midirec_main_eq start_time reads track h⟩

theorem be32_four : be32 ((([] : List Nat).length + 4) % 4294967296) = [0, 0, 0, 4] := by
  decide

/-! ## The recorder claims -/

/-- C3 (track length correctness): for every recording of `do_record` in which each
delta-time handed to `write_varlen` is below `2^28` and whose track content, the bytes
behind offset 21, is shorter than `2^32` bytes, the four bytes at offsets 18 to 21 of
the finished file hold, big-endian, exactly the number of bytes that follow offset 21
(all events and the End-Of-Track terminator), that is the file length minus 22. -/
theorem track_length_correct (transfers : List Transfer)
    (_hdelta : deltas_in_bounds (visited_packets transfers))
    (h : (do_record transfers).data.length - 22 < 2 ^ 32) :
    22 ≤ (do_record transfers).data.length ∧
    track_length_field (do_record transfers).data
      = (do_record transfers).data.length - 22 := by
  rw [do_record_eq_record_stream] at h ⊢
  obtain ⟨track, ht⟩ := record_stream_framing (visited_packets transfers)
  rw [ht] at h ⊢
  have hlen : (smf_preamble ++ be32 ((track.length + 4) % 4294967296) ++ track
      ++ end_of_track).length = 22 + (track.length + 4) := by
    simp [smf_preamble_length, be32_length, end_of_track]; omega
  simp only [at_pos] at h ⊢
  rw [hlen] at h ⊢
  have hsmall : track.length + 4 < 4294967296 := by norm_num at h; omega
  rw [Nat.mod_eq_of_lt hsmall]
  refine ⟨by omega, ?_⟩
  rw [List.append_assoc, track_length_field_eq _ hsmall]
  omega

/-- C6 (bit-exact framing): every recording, of `do_record` as of `midirec.c`, in
which each delta-time handed to `write_varlen` is below `2^28`, the one with no events
included, starts with the 18 bytes "MThd" 00 00 00 06 00 00 00 01 01 E0 "MTrk"
followed by the 4-byte track length, and ends with the four bytes 00 FF 2F 00 of the
zero-delta End-Of-Track; with no input the file is these 26 bytes with track
length 4. -/
theorem smf_framing (transfers : List Transfer) (start_time : timespec)
    (reads : List SerialRead)
    (_hrecord : deltas_in_bounds (visited_packets transfers))
    (_hserial : ∀ t ∈ midirec_deltas start_time reads, t < 2 ^ 28) :
    (∃ len4 track, len4.length = 4 ∧
      (do_record transfers).data = smf_preamble ++ len4 ++ track ++ [0x00, 0xFF, 0x2F, 0x00]) ∧
    (∃ len4 track, len4.length = 4 ∧
      (midirec_main start_time reads).data
        = smf_preamble ++ len4 ++ track ++ [0x00, 0xFF, 0x2F, 0x00]) ∧
    (do_record []).data = smf_preamble ++ [0, 0, 0, 4] ++ [0x00, 0xFF, 0x2F, 0x00] ∧
    (midirec_main start_time []).data = smf_preamble ++ [0, 0, 0, 4] ++ [0x00, 0xFF, 0x2F, 0x00] ∧
    smf_preamble = [0x4D, 0x54, 0x68, 0x64, 0x00, 0x00, 0x00, 0x06, 0x00, 0x00, 0x00, 0x01,
      0x01, 0xE0, 0x4D, 0x54, 0x72, 0x6B] := by
  refine ⟨?_, ?_, ?_, ?_, rfl⟩
  · obtain ⟨track, ht⟩ := record_stream_framing (visited_packets transfers)
    rw [do_record_eq_record_stream, ht]
    exact ⟨_, track, be32_length _, rfl⟩
  · obtain ⟨track, ht⟩ := midirec_main_framing start_time reads
    rw [ht]
    exact ⟨_, track, be32_length _, rfl⟩
  · rw [do_record_eq_record_stream]
    have := record_stream_eq [] [] (by simp [record_init])
    simp only [visited_packets, List.map_nil, List.flatten_nil]
    rw [this, be32_four]
    simp [at_pos, end_of_track]
  · rw [midirec_main_eq start_time [] [] (by simp [visited_bytes, midirec_init]), be32_four]
    simp [at_pos, end_of_track]

theorem smf_framing_witness :
    deltas_in_bounds (visited_packets [sample_notes]) ∧
    (∀ t ∈ midirec_deltas ⟨10, 0⟩ [sample_read], t < 2 ^ 28) ∧
    ((∃ len4 track, len4.length = 4 ∧
      (do_record [sample_notes]).data
        = smf_preamble ++ len4 ++ track ++ [0x00, 0xFF, 0x2F, 0x00]) ∧
    (∃ len4 track, len4.length = 4 ∧
      (midirec_main ⟨10, 0⟩ [sample_read]).data
        = smf_preamble ++ len4 ++ track ++ [0x00, 0xFF, 0x2F, 0x00]) ∧
    (do_record []).data = smf_preamble ++ [0, 0, 0, 4] ++ [0x00, 0xFF, 0x2F, 0x00] ∧
    (midirec_main ⟨10, 0⟩ []).data
      = smf_preamble ++ [0, 0, 0, 4] ++ [0x00, 0xFF, 0x2F, 0x00] ∧
    smf_preamble = [0x4D, 0x54, 0x68, 0x64, 0x00, 0x00, 0x00, 0x06, 0x00, 0x00, 0x00, 0x01,
      0x01, 0xE0, 0x4D, 0x54, 0x72, 0x6B]) :=
  ⟨by decide, by decide, smf_framing [sample_notes] ⟨10, 0⟩ [sample_read] (by decide) (by decide)⟩

theorem record_stream_nil :
    record_stream [] = at_pos (smf_preamble ++ [0, 0, 0, 4] ++ end_of_track) 22 := by
  rw [record_stream_eq [] [] (by simp [record_init]), be32_four]
  simp

theorem record_packets_waiting (pre : List UsbPacket) (hpre : ∀ p ∈ pre, ¬ is_note_on p) :
    ∀ st : RecState, st.first_note_played = false → pre.foldl record_packet st = st := by
  induction pre with
  | nil => intro st _; rfl
  | cons p ps ih =>
    intro st hst
    rw [List.foldl_cons, record_packet_waiting st p hst (hpre p (List.mem_cons_self _ _))]
    exact ih (fun q hq => hpre q (List.mem_cons_of_mem _ hq)) st hst

theorem record_stream_skip (pre post : List UsbPacket) (hpre : ∀ p ∈ pre, ¬ is_note_on p) :
    record_stream (pre ++ post) = record_stream post := by
  unfold record_stream
  simp only [List.foldl_append]
  rw [record_packets_waiting pre hpre _ rfl]

/-- C10 (first-note gating): for every sequence of transport packets, the packets in
front of the first Note-On with non-zero velocity contribute nothing: the recording
is the one `do_record` makes of the remaining packets alone. In particular, when no
packet is such a Note-On, the track is exactly the End-Of-Track terminator
00 FF 2F 00 and the patched track length is 4. -/
theorem first_note_gating (transfers : List Transfer) (pre post : List UsbPacket)
    (hsplit : visited_packets transfers = pre ++ post)
    (hpre : ∀ p ∈ pre, ¬ is_note_on p) :
    do_record transfers = record_stream post ∧
    (post = [] →
      (do_record transfers).data = smf_preamble ++ [0, 0, 0, 4] ++ [0x00, 0xFF, 0x2F, 0x00] ∧
      track_length_field (do_record transfers).data = 4) := by
  have hrec : do_record transfers = record_stream post := by
    rw [do_record_eq_record_stream, hsplit, record_stream_skip pre post hpre]
  refine ⟨hrec, ?_⟩
  intro hpost
  rw [hrec, hpost, record_stream_nil]
  exact ⟨rfl, by decide⟩

theorem varlen_bytes_480 : varlen_bytes 480 = [0x83, 0x60] := by
  rw [varlen_bytes_eq, write_varlen_loop_ge 480 (by norm_num),
    write_varlen_loop_lt _ (by norm_num)]
  rfl

theorem sample_notes_packets :
    visited_packets [sample_notes]
      = [⟨0x09, 0x90, 60, 100, ⟨10, 0⟩, ⟨10, 0⟩⟩,
         ⟨0x09, 0x90, 60, 0, ⟨10, 500000000⟩, ⟨10, 500000000⟩⟩] := by
  decide

theorem record_stream_two_notes :
    record_stream [⟨0x09, 0x90, 60, 100, ⟨10, 0⟩, ⟨10, 0⟩⟩,
        ⟨0x09, 0x90, 60, 0, ⟨10, 500000000⟩, ⟨10, 500000000⟩⟩]
      = at_pos (smf_preamble ++ [0, 0, 0, 20] ++ [0x00, 0xFF, 0x51, 0x03, 0x07, 0xA1, 0x20]
        ++ [0x00, 0x90, 60, 100] ++ [0x83, 0x60, 0x90, 60, 0]
        ++ [0x00, 0xFF, 0x2F, 0x00]) 22 := by
  have hfold : (List.foldl record_packet (record_init (at_end (smf_preamble ++ [0, 0, 0, 0])))
      [⟨0x09, 0x90, 60, 100, ⟨10, 0⟩, ⟨10, 0⟩⟩,
       ⟨0x09, 0x90, 60, 0, ⟨10, 500000000⟩, ⟨10, 500000000⟩⟩]).midi_f
      = at_end (smf_preamble ++ [0, 0, 0, 0] ++ ([0x00, 0xFF, 0x51, 0x03, 0x07, 0xA1, 0x20]
        ++ [0x00, 0x90, 60, 100] ++ [0x83, 0x60, 0x90, 60, 0])) := by
    simp only [List.foldl_cons, List.foldl_nil]
    rw [record_packet_first (record_init (at_end (smf_preamble ++ [0, 0, 0, 0])))
        ⟨0x09, 0x90, 60, 100, ⟨10, 0⟩, ⟨10, 0⟩⟩ (by decide) rfl (by decide),
      record_packet_recording _ _ (by decide) rfl]
    simp only [record_init, write_tempo_at_end, write_event_at_end, event_layout]
    have d1 : delta_ticks ⟨10, 0⟩ ⟨10, 0⟩ = 0 := by decide
    have d2 : delta_ticks ⟨10, 0⟩ ⟨10, 500000000⟩ = 480 := by decide
    rw [d1, d2, varlen_bytes_zero, varlen_bytes_480]
    simp [set_tempo]
    decide
  rw [record_stream_eq _ _ hfold]
  simp [at_pos, end_of_track]
  decide

theorem do_record_sample_notes :
    do_record [sample_notes]
      = at_pos (smf_preamble ++ [0, 0, 0, 20] ++ [0x00, 0xFF, 0x51, 0x03, 0x07, 0xA1, 0x20]
        ++ [0x00, 0x90, 60, 100] ++ [0x83, 0x60, 0x90, 60, 0]
        ++ [0x00, 0xFF, 0x2F, 0x00]) 22 := by
  rw [do_record_eq_record_stream, sample_notes_packets, record_stream_two_notes]

/-- C9 (packet capture path, evaluated): a Note-On on channel 0 with velocity 100,
followed half a second later by a Note-On of the same note with velocity 0, is stored
by `do_record` with the status byte 0x90 for both events: the second event is the
bytes 83 60 90 3C 00, its status byte at file offset 35 is 0x90 and not 0x80. -/
theorem do_record_keeps_velocity_zero_note_on :
    (do_record [sample_notes]).data
      = smf_preamble ++ [0, 0, 0, 20] ++ [0x00, 0xFF, 0x51, 0x03, 0x07, 0xA1, 0x20]
        ++ [0x00, 0x90, 60, 100] ++ [0x83, 0x60, 0x90, 60, 0]
        ++ [0x00, 0xFF, 0x2F, 0x00] ∧
    (do_record [sample_notes]).data.getD 35 0 = 0x90 := by
  rw [do_record_sample_notes]
  exact ⟨rfl, by decide⟩

theorem track_length_correct_witness :
    deltas_in_bounds (visited_packets [sample_notes]) ∧
    (do_record [sample_notes]).data.length - 22 < 2 ^ 32 ∧
    (22 ≤ (do_record [sample_notes]).data.length ∧
      track_length_field (do_record [sample_notes]).data
        = (do_record [sample_notes]).data.length - 22) :=
  ⟨by decide, by rw [do_record_sample_notes]; decide,
   track_length_correct [sample_notes] (by decide)
     (by rw [do_record_sample_notes]; decide)⟩

theorem sample_control_notes_packets :
    visited_packets [sample_control, sample_notes]
      = [⟨0x0B, 0xB0, 7, 100, ⟨9, 0⟩, ⟨9, 0⟩⟩]
        ++ [⟨0x09, 0x90, 60, 100, ⟨10, 0⟩, ⟨10, 0⟩⟩,
            ⟨0x09, 0x90, 60, 0, ⟨10, 500000000⟩, ⟨10, 500000000⟩⟩] := by
  decide

theorem first_note_gating_witness :
    visited_packets [sample_control, sample_notes]
      = [⟨0x0B, 0xB0, 7, 100, ⟨9, 0⟩, ⟨9, 0⟩⟩]
        ++ [⟨0x09, 0x90, 60, 100, ⟨10, 0⟩, ⟨10, 0⟩⟩,
            ⟨0x09, 0x90, 60, 0, ⟨10, 500000000⟩, ⟨10, 500000000⟩⟩] ∧
    (∀ p ∈ [(⟨0x0B, 0xB0, 7, 100, ⟨9, 0⟩, ⟨9, 0⟩⟩ : UsbPacket)], ¬ is_note_on p) ∧
    (do_record [sample_control, sample_notes]
      = record_stream [⟨0x09, 0x90, 60, 100, ⟨10, 0⟩, ⟨10, 0⟩⟩,
          ⟨0x09, 0x90, 60, 0, ⟨10, 500000000⟩, ⟨10, 500000000⟩⟩]) :=
  ⟨sample_control_notes_packets, by decide,
   (first_note_gating [sample_control, sample_notes]
      [⟨0x0B, 0xB0, 7, 100, ⟨9, 0⟩, ⟨9, 0⟩⟩]
      [⟨0x09, 0x90, 60, 100, ⟨10, 0⟩, ⟨10, 0⟩⟩,
       ⟨0x09, 0x90, 60, 0, ⟨10, 500000000⟩, ⟨10, 500000000⟩⟩]
      sample_control_notes_packets (by decide)).1⟩

/-! ## The steps of the serial-stream assembler -/

theorem midirec_byte_status (st : AsmState) (b : SerialByte)
    (hb : (b.byte % 256) &&& 0x80 ≠ 0) :
    midirec_byte st b = { st with status_byte := b.byte % 256, data_count := 0 } := by
  unfold midirec_byte
  simp only []
  rw [if_pos hb]

theorem midirec_byte_pending (st : AsmState) (b : SerialByte)
    (hb : (b.byte % 256) &&& 0x80 = 0) (hc : st.data_count = 0)
    (ht : ¬ ((st.status_byte &&& 0xF0) = 0xC0 ∨ (st.status_byte &&& 0xF0) = 0xD0)) :
    midirec_byte st b = { st with data0 := b.byte % 256, data_count := 1 } := by
  simp [midirec_byte, hb, hc, ht]

theorem midirec_byte_single (st : AsmState) (b : SerialByte)
    (hb : (b.byte % 256) &&& 0x80 = 0) (hc : st.data_count = 0)
    (ht : (st.status_byte &&& 0xF0) = 0xC0 ∨ (st.status_byte &&& 0xF0) = 0xD0) :
    midirec_byte st b =
      { st with
        midi_f := fputc (b.byte % 256)
          (fputc ((st.status_byte &&& 0xF0) ||| (st.status_byte &&& 0x0F))
            (write_varlen st.midi_f (delta_ticks st.last_time b.now))),
        data0 := b.byte % 256, data_count := 0, last_time := b.now } := by
  have h90 : ¬ ((st.status_byte &&& 0xF0) = 0x90 ∧ st.data1 = 0) := by
    intro h; rcases ht with ht | ht <;> rw [ht] at h <;> exact absurd h.1 (by norm_num)
  simp [midirec_byte, hb, hc, ht, h90]

theorem midirec_byte_second (st : AsmState) (b : SerialByte)
    (hb : (b.byte % 256) &&& 0x80 = 0) (hc : st.data_count = 1)
    (ht : ¬ ((st.status_byte &&& 0xF0) = 0xC0 ∨ (st.status_byte &&& 0xF0) = 0xD0)) :
    midirec_byte st b =
      { st with
        midi_f := fputc (b.byte % 256) (fputc st.data0
          (fputc ((if (st.status_byte &&& 0xF0) = 0x90 ∧ b.byte % 256 = 0 then 0x80
              else (st.status_byte &&& 0xF0)) ||| (st.status_byte &&& 0x0F))
            (write_varlen st.midi_f (delta_ticks st.last_time b.now)))),
        data1 := b.byte % 256, data_count := 0, last_time := b.now } := by
  have hne : ¬ ((if (st.status_byte &&& 0xF0) = 0x90 ∧ b.byte % 256 = 0 then 0x80
      else (st.status_byte &&& 0xF0)) = 0xC0
      ∨ (if (st.status_byte &&& 0xF0) = 0x90 ∧ b.byte % 256 = 0 then 0x80
      else (st.status_byte &&& 0xF0)) = 0xD0) := by
    split_ifs
    · norm_num
    · exact ht
  simp [midirec_byte, hb, hc, ht, hne]

theorem status_recompose (s : Nat) (hs : s < 256) : (s &&& 0xF0) ||| (s &&& 0x0F) = s := by
  have h1 : s &&& 240 = s / 16 % 16 * 16 := land_240 s
  have h2 : s &&& 15 = s % 16 := land_15 s
  show (s &&& 240) ||| (s &&& 15) = s
  rw [h1, h2, lor_nibble _ _ (Nat.mod_lt _ (by norm_num))]
  omega

theorem note_on_status (c : Nat) (hc : c < 16) :
    0x90 ||| c = 144 + c ∧ 0x80 ||| c = 128 + c ∧ ((0x90 ||| c) &&& 0xF0) = 0x90
      ∧ ((0x90 ||| c) &&& 0x0F) = c := by
  have h1 : 144 ||| c = 144 + c := lor_nibble 9 c hc
  have h2 : 128 ||| c = 128 + c := lor_nibble 8 c hc
  have h3 : (144 + c) &&& 240 = (144 + c) / 16 % 16 * 16 := land_240 _
  have h4 : (144 + c) &&& 15 = (144 + c) % 16 := land_15 _
  refine ⟨h1, h2, ?_, ?_⟩
  · show (144 ||| c) &&& 240 = 144
    rw [h1, h3]; omega
  · show (144 ||| c) &&& 15 = c
    rw [h1, h4]; omega

/-- C8 (Note-On/Off normalization in the serial-stream assembler): when a data byte
completes a message in `midirec.c` and the delta-time handed to `write_varlen` is
below `2^28`, (1) with running status `0x90 | c`, `c` in 0..15, and velocity 0 the
status byte written is `0x80 | c`, followed by the same two data bytes; (2) every
other two-byte message, a Note-On with non-zero velocity included, and (3) every
one-byte message are written with the running status unchanged. -/
theorem assembler_note_off_normalization (st : AsmState) (b : SerialByte) (l : List Nat)
    (hf : st.midi_f = at_end l) (hs : st.status_byte < 256) (hd : st.data0 < 256)
    (hb : (b.byte % 256) &&& 0x80 = 0)
    (_hdelta : delta_ticks st.last_time b.now < 2 ^ 28) :
    (∀ c < 16, st.status_byte = 0x90 ||| c → st.data_count = 1 → b.byte % 256 = 0 →
      (midirec_byte st b).midi_f
        = at_end (l ++ varlen_bytes (delta_ticks st.last_time b.now)
            ++ [0x80 ||| c, st.data0, 0])) ∧
    (st.data_count = 1 →
      ¬ ((st.status_byte &&& 0xF0) = 0xC0 ∨ (st.status_byte &&& 0xF0) = 0xD0) →
      ¬ ((st.status_byte &&& 0xF0) = 0x90 ∧ b.byte % 256 = 0) →
      (midirec_byte st b).midi_f
        = at_end (l ++ varlen_bytes (delta_ticks st.last_time b.now)
            ++ [st.status_byte, st.data0, b.byte % 256])) ∧
    (st.data_count = 0 →
      ((st.status_byte &&& 0xF0) = 0xC0 ∨ (st.status_byte &&& 0xF0) = 0xD0) →
      (midirec_byte st b).midi_f
        = at_end (l ++ varlen_bytes (delta_ticks st.last_time b.now)
            ++ [st.status_byte, b.byte % 256])) := by
  have hd0 : st.data0 % 256 = st.data0 := Nat.mod_eq_of_lt hd
  have hs0 : st.status_byte % 256 = st.status_byte := Nat.mod_eq_of_lt hs
  refine ⟨?_, ?_, ?_⟩
  · intro c hc hstatus hcount hvel
    obtain ⟨h1, h2, h3, h4⟩ := note_on_status c hc
    have ht : ¬ ((st.status_byte &&& 0xF0) = 0xC0 ∨ (st.status_byte &&& 0xF0) = 0xD0) := by
      rw [hstatus, h3]; norm_num
    rw [midirec_byte_second st b hb hcount ht]
    simp only [hf, write_varlen_at_end, fputc_at_end]
    rw [hstatus, h3, h4, if_pos ⟨rfl, hvel⟩, h2, hvel, hd0]
    have : (128 + c) % 256 = 128 + c := by omega
    rw [this]
    simp
  · intro hcount ht hnot
    rw [midirec_byte_second st b hb hcount ht]
    simp only [hf, write_varlen_at_end, fputc_at_end]
    rw [if_neg hnot, status_recompose _ hs, hs0, hd0]
    simp
  · intro hcount ht
    rw [midirec_byte_single st b hb hcount ht]
    simp only [hf, write_varlen_at_end, fputc_at_end]
    rw [status_recompose _ hs, hs0]
    simp

theorem assembler_note_off_normalization_witness :
    delta_ticks ⟨10, 0⟩ ⟨10, 500000000⟩ < 2 ^ 28 ∧
    (midirec_byte ⟨at_end [1, 2], 0x93, 60, 0, 1, ⟨10, 0⟩⟩ ⟨0, ⟨10, 500000000⟩⟩).midi_f
      = at_end ([1, 2] ++ varlen_bytes (delta_ticks ⟨10, 0⟩ ⟨10, 500000000⟩)
          ++ [0x80 ||| 3, 60, 0]) :=
  ⟨by decide,
   (assembler_note_off_normalization ⟨at_end [1, 2], 0x93, 60, 0, 1, ⟨10, 0⟩⟩
    ⟨0, ⟨10, 500000000⟩⟩ [1, 2] rfl (by decide) (by decide) (by decide) (by decide)).1
    3 (by decide) (by decide) rfl rfl⟩

/-! ## The rounds of the player -/

theorem play_iter_eof (f f1 f2 : FILE) (delta : Nat)
    (h1 : read_varlen f = (delta, f1)) (h2 : fgetc f1 = (none, f2)) :
    play_iter f = (⟨delta, play_delay delta, none⟩, none) := by
  unfold play_iter
  rw [h1]
  simp only []
  rw [h2]

theorem play_iter_end_of_track (f f1 f2 f3 f4 : FILE) (delta : Nat) (len : Option Nat)
    (h1 : read_varlen f = (delta, f1)) (h2 : fgetc f1 = (some 0xFF, f2))
    (h3 : fgetc f2 = (some 0x2F, f3)) (h4 : fgetc f3 = (len, f4)) :
    play_iter f = (⟨delta, play_delay delta, none⟩, none) := by
  unfold play_iter
  rw [h1]
  simp only []
  rw [h2]
  simp only []
  rw [h3, h4]
  simp

theorem play_iter_meta (f f1 f2 f3 f4 : FILE) (delta : Nat) (kind len : Option Nat)
    (h1 : read_varlen f = (delta, f1)) (h2 : fgetc f1 = (some 0xFF, f2))
    (h3 : fgetc f2 = (kind, f3)) (hk : kind ≠ some 0x2F) (h4 : fgetc f3 = (len, f4)) :
    play_iter f = (⟨delta, play_delay delta, none⟩,
      some (fseek_cur f4 (to_offset len))) := by
  unfold play_iter
  rw [h1]
  simp only []
  rw [h2]
  simp only []
  rw [h3, h4]
  simp [hk]

theorem play_iter_one_data (f f1 f2 f3 : FILE) (delta status : Nat) (c2 : Option Nat)
    (h1 : read_varlen f = (delta, f1)) (h2 : fgetc f1 = (some status, f2))
    (hs : status ≠ 0xFF)
    (hm : (status &&& 0xF0) = 0xC0 ∨ (status &&& 0xF0) = 0xD0)
    (h3 : fgetc f2 = (c2, f3)) :
    play_iter f = (⟨delta, play_delay delta,
      some [(status >>> 4) % 256, status % 256, to_uint8 c2, 0]⟩, some f3) := by
  unfold play_iter
  rw [h1]
  simp only []
  rw [h2]
  simp only []
  rw [if_neg hs, if_pos hm, h3]

theorem play_iter_two_data (f f1 f2 f3 f4 : FILE) (delta status : Nat) (c2 c3 : Option Nat)
    (h1 : read_varlen f = (delta, f1)) (h2 : fgetc f1 = (some status, f2))
    (hs : status ≠ 0xFF)
    (hm : ¬ ((status &&& 0xF0) = 0xC0 ∨ (status &&& 0xF0) = 0xD0))
    (h3 : fgetc f2 = (c2, f3)) (h4 : fgetc f3 = (c3, f4)) :
    play_iter f = (⟨delta, play_delay delta,
      some [(status >>> 4) % 256, status % 256, to_uint8 c2, to_uint8 c3]⟩, some f4) := by
  unfold play_iter
  rw [h1]
  simp only []
  rw [h2]
  simp only []
  rw [if_neg hs, if_neg hm, h3, h4]

theorem fgetc_of_split (data : List Nat) (pos : Nat) (pre rest : List Nat) (c : Nat)
    (hdata : data = pre ++ c :: rest) (hpos : pos = pre.length) :
    fgetc (at_pos data pos) = (some c, at_pos data (pos + 1)) := by
  subst hdata hpos
  exact fgetc_at pre rest c

theorem read_varlen_of_split (data : List Nat) (pos : Nat) (pre rest : List Nat) (v : Nat)
    (hv : v < 4294967296) (hdata : data = pre ++ varlen_bytes v ++ rest)
    (hpos : pos = pre.length) :
    read_varlen (at_pos data pos) = (v, at_pos data (pos + (varlen_bytes v).length)) := by
  subst hdata hpos
  exact read_varlen_varlen_bytes v hv pre rest

theorem fseek_cur_nat (data : List Nat) (pos n : Nat) :
    fseek_cur (at_pos data pos) (n : Int) = at_pos data (pos + n) := by
  unfold fseek_cur at_pos
  simp only []
  rw [if_pos (by omega)]
  congr 1

theorem play_iter_event_layout (pre rest : List Nat) (delta s d1 d2 : Nat)
    (hdelta : delta < 4294967296) (hs : s ≠ 0xFF) :
    play_iter (at_pos (pre ++ event_layout delta s d1 d2 ++ rest) pre.length)
      = (⟨delta, play_delay delta,
          some [(s >>> 4) % 256, s % 256, d1 % 256,
            if (s &&& 0xF0) = 0xC0 ∨ (s &&& 0xF0) = 0xD0 then 0 else d2 % 256]⟩,
         some (at_pos (pre ++ event_layout delta s d1 d2 ++ rest)
           (pre.length + (event_layout delta s d1 d2).length))) := by
  by_cases hm : (s &&& 0xF0) = 0xC0 ∨ (s &&& 0xF0) = 0xD0
  · have hlay : event_layout delta s d1 d2 = varlen_bytes delta ++ [s, d1] := by
      unfold event_layout; rw [if_pos hm]; simp
    rw [hlay, if_pos hm]
    rw [play_iter_one_data _ _ _ _ delta s (some d1)
      (read_varlen_of_split _ _ pre ([s, d1] ++ rest) delta hdelta (by simp) rfl)
      (fgetc_of_split _ _ (pre ++ varlen_bytes delta) (d1 :: rest) s (by simp) (by simp))
      hs hm
      (fgetc_of_split _ _ (pre ++ varlen_bytes delta ++ [s]) rest d1 (by simp) (by simp; omega))]
    simp [to_uint8, Nat.add_assoc]
  · have hlay : event_layout delta s d1 d2 = varlen_bytes delta ++ [s, d1, d2] := by
      unfold event_layout; rw [if_neg hm]; simp
    rw [hlay, if_neg hm]
    rw [play_iter_two_data _ _ _ _ _ delta s (some d1) (some d2)
      (read_varlen_of_split _ _ pre ([s, d1, d2] ++ rest) delta hdelta (by simp) rfl)
      (fgetc_of_split _ _ (pre ++ varlen_bytes delta) (d1 :: d2 :: rest) s (by simp) (by simp))
      hs hm
      (fgetc_of_split _ _ (pre ++ varlen_bytes delta ++ [s]) (d2 :: rest) d1 (by simp)
        (by simp; omega))
      (fgetc_of_split _ _ (pre ++ varlen_bytes delta ++ [s, d1]) rest d2 (by simp)
        (by simp; omega))]
    simp [to_uint8, Nat.add_assoc]

theorem play_iter_set_tempo (pre rest : List Nat) :
    play_iter (at_pos (pre ++ set_tempo ++ rest) pre.length)
      = (⟨0, none, none⟩, some (at_pos (pre ++ set_tempo ++ rest) (pre.length + 7))) := by
  rw [play_iter_meta _ _ _ _ _ 0 (some 0x51) (some 0x03)
    (read_varlen_of_split _ _ pre ([0xFF, 0x51, 0x03, 0x07, 0xA1, 0x20] ++ rest) 0
      (by norm_num) (by simp [set_tempo, varlen_bytes_zero]) rfl)
    (fgetc_of_split _ _ (pre ++ [0]) ([0x51, 0x03, 0x07, 0xA1, 0x20] ++ rest) 0xFF
      (by simp [set_tempo]) (by simp [varlen_bytes_zero]))
    (fgetc_of_split _ _ (pre ++ [0, 0xFF]) ([0x03, 0x07, 0xA1, 0x20] ++ rest) 0x51
      (by simp [set_tempo]) (by simp [varlen_bytes_zero]))
    (by decide)
    (fgetc_of_split _ _ (pre ++ [0, 0xFF, 0x51]) ([0x07, 0xA1, 0x20] ++ rest) 0x03
      (by simp [set_tempo]) (by simp [varlen_bytes_zero]))]
  have hoff : to_offset (some 3) = ((3 : Nat) : Int) := rfl
  rw [hoff, fseek_cur_nat]
  simp [play_delay, varlen_bytes_zero, Nat.add_assoc]

theorem play_iter_end_of_track_layout (pre rest : List Nat) :
    play_iter (at_pos (pre ++ end_of_track ++ rest) pre.length) = (⟨0, none, none⟩, none) := by
  rw [play_iter_end_of_track _ _ _ _ _ 0 (some 0x00)
    (read_varlen_of_split _ _ pre ([0xFF, 0x2F, 0x00] ++ rest) 0
      (by norm_num) (by simp [end_of_track, varlen_bytes_zero]) rfl)
    (fgetc_of_split _ _ (pre ++ [0]) ([0x2F, 0x00] ++ rest) 0xFF
      (by simp [end_of_track]) (by simp [varlen_bytes_zero]))
    (fgetc_of_split _ _ (pre ++ [0, 0xFF]) ([0x00] ++ rest) 0x2F
      (by simp [end_of_track]) (by simp [varlen_bytes_zero]))
    (fgetc_of_split _ _ (pre ++ [0, 0xFF, 0x2F]) rest 0x00
      (by simp [end_of_track]) (by simp [varlen_bytes_zero]))]
  simp [play_delay]

theorem events_written_at_end (events : List TimedEvent)
    (h : ∀ e ∈ events, e.status < 256 ∧ e.data1 < 256 ∧ e.data2 < 256) :
    ∀ l, events.foldl (fun g e => write_event g e.delta e.status e.data1 e.data2) (at_end l)
      = at_end (l ++ events_layout events) := by
  induction events with
  | nil => intro l; simp [events_layout]
  | cons e es ih =>
    intro l
    obtain ⟨hs, h1, h2⟩ := h e (List.mem_cons_self _ _)
    have hw := write_event_at_end l e.delta e.status e.data1 e.data2
    rw [Nat.mod_eq_of_lt hs, Nat.mod_eq_of_lt h1, Nat.mod_eq_of_lt h2] at hw
    rw [List.foldl_cons, hw, ih (fun x hx => h x (List.mem_cons_of_mem _ hx))]
    simp [events_layout]

theorem smf_written_eq (events : List TimedEvent)
    (h : ∀ e ∈ events, e.status < 256 ∧ e.data1 < 256 ∧ e.data2 < 256) :
    smf_written events
      = at_pos (smf_preamble
          ++ be32 (((set_tempo ++ events_layout events).length + 4) % 4294967296)
          ++ (set_tempo ++ events_layout events) ++ end_of_track) 22 := by
  unfold smf_written
  rw [fopen_wb_at_end, record_begin_at_end]
  simp only []
  rw [write_tempo_at_end, events_written_at_end events h]
  have e : smf_preamble ++ [0, 0, 0, 0] ++ set_tempo ++ events_layout events
      = smf_preamble ++ [0, 0, 0, 0] ++ (set_tempo ++ events_layout events) := by simp
  rw [e]
  exact record_finish_at_end smf_preamble _ 0 0 0 0

theorem play_loop_events (events : List TimedEvent)
    (h : ∀ e ∈ events, e.delta < 4294967296 ∧ e.status ≠ 0xFF ∧ e.status < 256
      ∧ e.data1 < 256 ∧ e.data2 < 256) :
    ∀ (pre rest : List Nat) (fuel : Nat), events.length + 1 ≤ fuel →
      play_loop fuel (at_pos (pre ++ events_layout events ++ end_of_track ++ rest) pre.length)
        = some (events.map event_round ++ [meta_round]) := by
  induction events with
  | nil =>
    intro pre rest fuel hfuel
    obtain ⟨n, rfl⟩ : ∃ n, fuel = n + 1 := ⟨fuel - 1, by simp at hfuel; omega⟩
    have hfile : pre ++ events_layout [] ++ end_of_track ++ rest
        = pre ++ end_of_track ++ rest := by simp [events_layout]
    rw [hfile, play_loop, play_iter_end_of_track_layout]
    rfl
  | cons e es ih =>
    intro pre rest fuel hfuel
    obtain ⟨n, rfl⟩ : ∃ n, fuel = n + 1 := ⟨fuel - 1, by simp at hfuel; omega⟩
    obtain ⟨hd, hs, hs256, h1, h2⟩ := h e (List.mem_cons_self _ _)
    have hfile : pre ++ events_layout (e :: es) ++ end_of_track ++ rest
        = pre ++ event_layout e.delta e.status e.data1 e.data2
          ++ (events_layout es ++ end_of_track ++ rest) := by
      simp [events_layout]
    have hfile2 : pre ++ event_layout e.delta e.status e.data1 e.data2
          ++ (events_layout es ++ end_of_track ++ rest)
        = (pre ++ event_layout e.delta e.status e.data1 e.data2)
          ++ events_layout es ++ end_of_track ++ rest := by
      simp
    have hlen : pre.length + (event_layout e.delta e.status e.data1 e.data2).length
        = (pre ++ event_layout e.delta e.status e.data1 e.data2).length := by simp
    rw [hfile, play_loop, play_iter_event_layout pre _ e.delta e.status e.data1 e.data2 hd hs]
    simp only []
    rw [hfile2, hlen, ih (fun x hx => h x (List.mem_cons_of_mem _ hx)) _ rest n
      (by simp at hfuel; omega)]
    simp [event_round, Nat.mod_eq_of_lt hs256, Nat.mod_eq_of_lt h1, Nat.mod_eq_of_lt h2,
      Nat.mod_eq_of_lt (show e.status >>> 4 < 256 by rw [Nat.shiftRight_eq_div_pow]; omega)]

theorem do_play_pass_start (fuel : Nat) (bytes : List Nat) :
    do_play_pass fuel bytes = play_loop fuel (at_pos bytes 22) := by
  unfold do_play_pass
  congr 1

theorem sent_events_map (events : List TimedEvent) (tail : List PlayIter) :
    sent_events (events.map event_round ++ tail)
      = events.map (fun e => (e.delta, [e.status >>> 4, e.status, e.data1,
          if (e.status &&& 0xF0) = 0xC0 ∨ (e.status &&& 0xF0) = 0xD0 then 0 else e.data2]))
        ++ sent_events tail := by
  induction events with
  | nil => simp
  | cons e es ih =>
    have hstep : sent_events (event_round e :: (es.map event_round ++ tail))
        = (e.delta, [e.status >>> 4, e.status, e.data1,
            if (e.status &&& 0xF0) = 0xC0 ∨ (e.status &&& 0xF0) = 0xD0 then 0 else e.data2])
          :: sent_events (es.map event_round ++ tail) := by
      simp [sent_events, event_round]
    rw [List.map_cons, List.cons_append, hstep, ih]
    simp

theorem sent_events_rounds (events : List TimedEvent) :
    sent_events (meta_round :: (events.map event_round ++ [meta_round]))
      = events.map (fun e => (e.delta, [e.status >>> 4, e.status, e.data1,
          if (e.status &&& 0xF0) = 0xC0 ∨ (e.status &&& 0xF0) = 0xD0 then 0 else e.data2])) := by
  have h1 : ∀ l, sent_events (meta_round :: l) = sent_events l := by
    intro l; simp [sent_events, meta_round]
  rw [h1, sent_events_map, h1]
  simp [sent_events]

theorem do_play_pass_smf_written (events : List TimedEvent)
    (h : ∀ e ∈ events, e.delta < 2 ^ 28 ∧ 0x80 ≤ e.status ∧ e.status ≤ 0xEF
      ∧ e.data1 < 256 ∧ e.data2 < 256)
    (fuel : Nat) (hfuel : events.length + 2 ≤ fuel) :
    do_play_pass fuel (smf_written events).data
      = some (meta_round :: (events.map event_round ++ [meta_round])) ∧
    sent_events (meta_round :: (events.map event_round ++ [meta_round]))
      = events.map (fun e => (e.delta, [e.status >>> 4, e.status, e.data1,
          if (e.status &&& 0xF0) = 0xC0 ∨ (e.status &&& 0xF0) = 0xD0 then 0 else e.data2])) := by
  refine ⟨?_, sent_events_rounds events⟩
  have hbytes : ∀ e ∈ events, e.status < 256 ∧ e.data1 < 256 ∧ e.data2 < 256 := by
    intro e he
    obtain ⟨_, _, hs, h1, h2⟩ := h e he
    exact ⟨by omega, h1, h2⟩
  have hread : ∀ e ∈ events, e.delta < 4294967296 ∧ e.status ≠ 0xFF ∧ e.status < 256
      ∧ e.data1 < 256 ∧ e.data2 < 256 := by
    intro e he
    obtain ⟨hd, _, hs, h1, h2⟩ := h e he
    norm_num at hd
    exact ⟨by omega, by omega, by omega, h1, h2⟩
  obtain ⟨n, rfl⟩ : ∃ n, fuel = n + 1 := ⟨fuel - 1, by omega⟩
  rw [smf_written_eq events hbytes, do_play_pass_start]
  generalize hpre : smf_preamble
    ++ be32 (((set_tempo ++ events_layout events).length + 4) % 4294967296) = pre
  have hlen : pre.length = 22 := by
    rw [← hpre, List.length_append, smf_preamble_length, be32_length]
  have hfile : pre ++ (set_tempo ++ events_layout events) ++ end_of_track
      = pre ++ set_tempo ++ (events_layout events ++ end_of_track) := by simp
  have hfile2 : pre ++ set_tempo ++ (events_layout events ++ end_of_track)
      = (pre ++ set_tempo) ++ events_layout events ++ end_of_track ++ [] := by simp
  have hpos : pre.length + 7 = (pre ++ set_tempo).length := by simp [set_tempo]
  have hdata : ∀ (l : List Nat) (k : Nat), (at_pos l k).data = l := fun _ _ => rfl
  rw [hdata, hfile, ← hlen, play_loop, play_iter_set_tempo]
  simp only []
  rw [hfile2, hpos, play_loop_events events hread _ [] n (by omega)]
  rfl

theorem recorded_from_bytes (ps : List UsbPacket) :
    ∀ last, ∀ e ∈ recorded_from last ps, e.status < 256 ∧ e.data1 < 256 ∧ e.data2 < 256 := by
  induction ps with
  | nil => intro last e he; simp [recorded_from] at he
  | cons p ps ih =>
    intro last e he
    simp only [recorded_from] at he
    split at he
    · rw [List.mem_cons] at he
      rcases he with rfl | he
      · exact ⟨Nat.mod_lt _ (by norm_num), Nat.mod_lt _ (by norm_num),
          Nat.mod_lt _ (by norm_num)⟩
      · exact ih _ e he
    · exact ih _ e he

theorem recorded_bytes (ps : List UsbPacket) :
    ∀ e ∈ recorded ps, e.status < 256 ∧ e.data1 < 256 ∧ e.data2 < 256 := by
  induction ps with
  | nil => intro e he; simp [recorded] at he
  | cons p ps ih =>
    intro e he
    simp only [recorded] at he
    split at he
    · rw [List.mem_cons] at he
      rcases he with rfl | he
      · exact ⟨Nat.mod_lt _ (by norm_num), Nat.mod_lt _ (by norm_num),
          Nat.mod_lt _ (by norm_num)⟩
      · exact recorded_from_bytes ps _ e he
    · exact ih e he

theorem record_packets_recording (ps : List UsbPacket) :
    ∀ (st : RecState) (l : List Nat), st.first_note_played = true → st.midi_f = at_end l →
      (ps.foldl record_packet st).midi_f
        = at_end (l ++ events_layout (recorded_from st.last ps)) := by
  induction ps with
  | nil => intro st l _ hf; simp [recorded_from, events_layout, hf]
  | cons p ps ih =>
    intro st l hst hf
    rw [List.foldl_cons]
    by_cases hcin : (p.b0 &&& 0x0F) % 256 ≥ 0x8 ∧ (p.b0 &&& 0x0F) % 256 ≤ 0xE
    · rw [record_packet_recording st p hcin hst,
        ih _ (l ++ event_layout (delta_ticks st.last p.now) (p.b1 % 256) (p.b2 % 256 % 256)
          (p.b3 % 256 % 256)) rfl (by simp only []; rw [hf, write_event_at_end])]
      simp only [recorded_from]
      rw [if_pos hcin]
      simp [events_layout]
    · rw [record_packet_ignored st p hcin, ih st l hst hf]
      simp only [recorded_from]
      rw [if_neg hcin]

theorem record_packets_recorded (ps : List UsbPacket) :
    ∀ (st : RecState) (l : List Nat), st.first_note_played = false → st.midi_f = at_end l →
      (ps.foldl record_packet st).midi_f
        = at_end (l ++ (if recorded ps = [] then []
            else set_tempo ++ events_layout (recorded ps))) := by
  induction ps with
  | nil => intro st l _ hf; simp [recorded, hf]
  | cons p ps ih =>
    intro st l hst hf
    rw [List.foldl_cons]
    by_cases hq : ((p.b0 &&& 0x0F) % 256 ≥ 0x8 ∧ (p.b0 &&& 0x0F) % 256 ≤ 0xE) ∧ is_note_on p
    · rw [record_packet_first st p hq.1 hst hq.2,
        record_packets_recording ps _ (l ++ set_tempo ++ event_layout (delta_ticks p.start p.now)
          (p.b1 % 256) (p.b2 % 256 % 256) (p.b3 % 256 % 256)) rfl
          (by simp only []; rw [hf, write_tempo_at_end, write_event_at_end])]
      simp only [recorded]
      rw [if_pos hq, if_neg (List.cons_ne_nil _ _)]
      simp [events_layout]
    · have hstep : record_packet st p = st := by
        by_cases hcin : (p.b0 &&& 0x0F) % 256 ≥ 0x8 ∧ (p.b0 &&& 0x0F) % 256 ≤ 0xE
        · exact record_packet_waiting st p hst (fun hn => hq ⟨hcin, hn⟩)
        · exact record_packet_ignored st p hcin
      rw [hstep, ih st l hst hf]
      simp only [recorded]
      rw [if_neg hq]

theorem record_stream_eq_smf_written (ps : List UsbPacket) (h : recorded ps ≠ []) :
    record_stream ps = smf_written (recorded ps) := by
  have hfold := record_packets_recorded ps (record_init (at_end (smf_preamble ++ [0, 0, 0, 0])))
    (smf_preamble ++ [0, 0, 0, 0]) rfl rfl
  rw [if_neg h] at hfold
  rw [record_stream_eq ps _ hfold, smf_written_eq _ (recorded_bytes ps)]

theorem record_stream_eq_empty (ps : List UsbPacket) (h : recorded ps = []) :
    record_stream ps = record_stream [] := by
  have hfold := record_packets_recorded ps (record_init (at_end (smf_preamble ++ [0, 0, 0, 0])))
    (smf_preamble ++ [0, 0, 0, 0]) rfl rfl
  rw [if_pos h] at hfold
  rw [record_stream_eq ps [] hfold, record_stream_eq [] [] (by simp [record_init])]

theorem do_record_round_trip (transfers : List Transfer)
    (hne : recorded (visited_packets transfers) ≠ [])
    (h : ∀ e ∈ recorded (visited_packets transfers),
      e.delta < 2 ^ 28 ∧ 0x80 ≤ e.status ∧ e.status ≤ 0xEF)
    (fuel : Nat) (hfuel : (recorded (visited_packets transfers)).length + 2 ≤ fuel) :
    do_play_pass fuel (do_record transfers).data
      = some (meta_round
          :: ((recorded (visited_packets transfers)).map event_round ++ [meta_round])) := by
  rw [do_record_eq_record_stream, record_stream_eq_smf_written _ hne]
  refine (do_play_pass_smf_written _ ?_ fuel hfuel).1
  intro e he
  obtain ⟨hd, h1, h2⟩ := h e he
  obtain ⟨_, hb1, hb2⟩ := recorded_bytes _ e he
  exact ⟨hd, h1, h2, hb1, hb2⟩

/-! ## The player claims -/

/-- C2 (SMF round-trip): for every ordered sequence of channel-voice events (status
0x80..0xEF, data bytes of any value, each delta below `2^28`) that the recorder
writes as Set-Tempo meta, then delta, status and data per event, then End-Of-Track,
one pass of the player, which starts reading at file offset 22, ends at the
End-Of-Track after one round for the Set-Tempo, one round per event and the final
round; the packets it sends are exactly the events in order, each with its delta,
status, first data byte and second data byte if present, and nothing else. -/
theorem smf_round_trip (events : List TimedEvent)
    (h : ∀ e ∈ events, e.delta < 2 ^ 28 ∧ 0x80 ≤ e.status ∧ e.status ≤ 0xEF
      ∧ e.data1 < 256 ∧ e.data2 < 256)
    (fuel : Nat) (hfuel : events.length + 2 ≤ fuel) :
    do_play_pass fuel (smf_written events).data
      = some (meta_round :: (events.map event_round ++ [meta_round])) ∧
    sent_events (meta_round :: (events.map event_round ++ [meta_round]))
      = events.map (fun e => (e.delta, [e.status >>> 4, e.status, e.data1,
          if (e.status &&& 0xF0) = 0xC0 ∨ (e.status &&& 0xF0) = 0xD0 then 0 else e.data2])) :=
  do_play_pass_smf_written events h fuel hfuel

theorem smf_round_trip_witness :
    (∀ e ∈ sample_events, e.delta < 2 ^ 28 ∧ 0x80 ≤ e.status ∧ e.status ≤ 0xEF
      ∧ e.data1 < 256 ∧ e.data2 < 256) ∧
    sample_events.length + 2 ≤ 5 ∧
    (do_play_pass 5 (smf_written sample_events).data
      = some (meta_round :: (sample_events.map event_round ++ [meta_round])) ∧
    sent_events (meta_round :: (sample_events.map event_round ++ [meta_round]))
      = sample_events.map (fun e => (e.delta, [e.status >>> 4, e.status, e.data1,
          if (e.status &&& 0xF0) = 0xC0 ∨ (e.status &&& 0xF0) = 0xD0 then 0 else e.data2]))) :=
  ⟨by decide, by decide, smf_round_trip sample_events (by decide) 5 (by decide)⟩

/-- C7 as stated fails at status 0xFF: for the event with delta 0, status 0xFF and
data bytes 1 and 3 the recorder writes two data bytes (the event ends at offset 4),
while the player takes 0xFF for a meta event, reads the two bytes as kind and length,
skips three more bytes and resumes at offset 7 without sending a packet. -/
theorem reader_takes_status_ff_as_meta :
    write_event (at_end []) 0 0xFF 1 3 = at_end [0x00, 0xFF, 1, 3] ∧
    play_iter (at_pos ((write_event (at_end []) 0 0xFF 1 3).data ++ [0x00, 0x90, 60, 100]) 0)
      = (⟨0, none, none⟩,
         some (at_pos ((write_event (at_end []) 0 0xFF 1 3).data ++ [0x00, 0x90, 60, 100]) 7)) ∧
    (play_iter (at_pos ((write_event (at_end []) 0 0xFF 1 3).data
        ++ [0x00, 0x90, 60, 100]) 0)).2
      ≠ some (at_pos ((write_event (at_end []) 0 0xFF 1 3).data ++ [0x00, 0x90, 60, 100])
          (write_event (at_end []) 0 0xFF 1 3).pos) := by
  have hw : write_event (at_end []) 0 0xFF 1 3 = at_end [0x00, 0xFF, 1, 3] := by
    have h := write_event_at_end [] 0 0xFF 1 3
    rw [show (0xFF : Nat) % 256 = 0xFF by norm_num, show (1 : Nat) % 256 = 1 by norm_num,
      show (3 : Nat) % 256 = 3 by norm_num] at h
    rw [h]
    simp [event_layout, varlen_bytes_zero]
    decide
  have hp : play_iter (at_pos [0x00, 0xFF, 1, 3, 0x00, 0x90, 60, 100] 0)
      = (⟨0, none, none⟩, some (at_pos [0x00, 0xFF, 1, 3, 0x00, 0x90, 60, 100] 7)) := by
    have hr : read_varlen (at_pos [0x00, 0xFF, 1, 3, 0x00, 0x90, 60, 100] 0)
        = (0, at_pos [0x00, 0xFF, 1, 3, 0x00, 0x90, 60, 100] 1) := by
      rw [read_varlen_of_split _ 0 [] [0xFF, 1, 3, 0x00, 0x90, 60, 100] 0 (by norm_num)
        (by simp [varlen_bytes_zero]) rfl, varlen_bytes_zero]
      rfl
    rw [play_iter_meta (at_pos [0x00, 0xFF, 1, 3, 0x00, 0x90, 60, 100] 0)
      (at_pos [0x00, 0xFF, 1, 3, 0x00, 0x90, 60, 100] 1)
      (at_pos [0x00, 0xFF, 1, 3, 0x00, 0x90, 60, 100] 2)
      (at_pos [0x00, 0xFF, 1, 3, 0x00, 0x90, 60, 100] 3)
      (at_pos [0x00, 0xFF, 1, 3, 0x00, 0x90, 60, 100] 4) 0 (some 1) (some 3)
      hr
      (fgetc_of_split _ 1 [0] [1, 3, 0x00, 0x90, 60, 100] 0xFF (by simp) rfl)
      (fgetc_of_split _ 2 [0, 0xFF] [3, 0x00, 0x90, 60, 100] 1 (by simp) rfl)
      (by decide)
      (fgetc_of_split _ 3 [0, 0xFF, 1] [0x00, 0x90, 60, 100] 3 (by simp) rfl)]
    have hoff : to_offset (some 3) = ((3 : Nat) : Int) := rfl
    rw [hoff, fseek_cur_nat]
    simp [play_delay]
  refine ⟨hw, ?_, ?_⟩
  · rw [hw]; exact hp
  · rw [hw]
    show (play_iter (at_pos [0x00, 0xFF, 1, 3, 0x00, 0x90, 60, 100] 0)).2 ≠ _
    rw [hp]
    simp [at_pos, at_end]

/-- C7 amended (Program-Change framing): for every status byte `s` in 0..255 the
range test `0xC0 <= s <= 0xDF` of the recorder is equivalent to the mask test
`(s & 0xF0)` in {0xC0, 0xD0}, and the recorder writes the second data byte iff the
mask test fails; for every `s` other than 0xFF (which the player parses as a meta
event) the player reads the event back with the same number of data bytes and stops
exactly where the recorder stopped; status 0xC3 with data 10 is stored with one data
byte and status 0x93 with data (10, 64) with two. -/
theorem program_change_framing (s : Nat) (hs : s < 256) :
    ((s ≥ 0xC0 ∧ s ≤ 0xDF) ↔ ((s &&& 0xF0) = 0xC0 ∨ (s &&& 0xF0) = 0xD0)) ∧
    (∀ l delta d1 d2, write_event (at_end l) delta s d1 d2
      = at_end (l ++ varlen_bytes delta ++ [s, d1 % 256]
          ++ (if (s &&& 0xF0) = 0xC0 ∨ (s &&& 0xF0) = 0xD0 then [] else [d2 % 256]))) ∧
    (s ≠ 0xFF → ∀ pre rest delta d1 d2, delta < 2 ^ 28 →
      play_iter (at_pos ((write_event (at_end pre) delta s d1 d2).data ++ rest) pre.length)
        = (⟨delta, play_delay delta,
            some [s >>> 4, s, d1 % 256,
              if (s &&& 0xF0) = 0xC0 ∨ (s &&& 0xF0) = 0xD0 then 0 else d2 % 256]⟩,
           some (at_pos ((write_event (at_end pre) delta s d1 d2).data ++ rest)
             (write_event (at_end pre) delta s d1 d2).pos))) ∧
    write_event (at_end []) 0 0xC3 10 0 = at_end [0x00, 0xC3, 10] ∧
    write_event (at_end []) 0 0x93 10 64 = at_end [0x00, 0x93, 10, 64] := by
  have hs0 : s % 256 = s := Nat.mod_eq_of_lt hs
  have hw : ∀ l delta d1 d2, write_event (at_end l) delta s d1 d2
      = at_end (l ++ event_layout delta s (d1 % 256) (d2 % 256)) := by
    intro l delta d1 d2
    have h := write_event_at_end l delta s d1 d2
    rw [hs0] at h
    exact h
  refine ⟨range_test_iff_mask s hs, ?_, ?_, ?_, ?_⟩
  · intro l delta d1 d2
    rw [hw]
    simp [event_layout]
  · intro hff pre rest delta d1 d2 hdelta
    rw [hw]
    have hdata : ∀ (l : List Nat), (at_end l).data = l := fun _ => rfl
    have hpos : ∀ (l : List Nat), (at_end l).pos = l.length := fun _ => rfl
    rw [hdata, hpos]
    have h := play_iter_event_layout pre rest delta s (d1 % 256) (d2 % 256)
      (by norm_num at hdelta; omega) hff
    rw [hs0, Nat.mod_mod, Nat.mod_mod,
      Nat.mod_eq_of_lt (show s >>> 4 < 256 by rw [Nat.shiftRight_eq_div_pow]; omega)] at h
    rw [h, List.length_append]
  · have h := write_event_at_end [] 0 0xC3 10 0
    rw [show (0xC3 : Nat) % 256 = 0xC3 by norm_num] at h
    rw [h]
    simp [event_layout, varlen_bytes_zero]
    decide
  · have h := write_event_at_end [] 0 0x93 10 64
    rw [show (0x93 : Nat) % 256 = 0x93 by norm_num] at h
    rw [h]
    simp [event_layout, varlen_bytes_zero]
    decide

theorem program_change_framing_witness :
    (0xC3 : Nat) < 256 ∧ (0xC3 : Nat) ≠ 0xFF ∧ (5 : Nat) < 2 ^ 28 ∧
    play_iter (at_pos ((write_event (at_end [7]) 5 0xC3 10 0).data ++ [9]) [7].length)
      = (⟨5, play_delay 5,
          some [0xC3 >>> 4, 0xC3, 10 % 256,
            if (0xC3 &&& 0xF0) = 0xC0 ∨ (0xC3 &&& 0xF0) = 0xD0 then 0 else 0 % 256]⟩,
         some (at_pos ((write_event (at_end [7]) 5 0xC3 10 0).data ++ [9])
           (write_event (at_end [7]) 5 0xC3 10 0).pos)) :=
  ⟨by decide, by decide, by decide,
   (program_change_framing 0xC3 (by decide)).2.2.1 (by decide) [7] [9] 5 10 0 (by decide)⟩

/-! ## The scratch buffer of the encoder -/

theorem write_varlen_loop_length_ge (k : Nat) :
    ∀ value, 128 ^ k ≤ value → k ≤ (write_varlen_loop value []).length := by
  induction k with
  | zero => intro value _; exact Nat.zero_le _
  | succ k ih =>
    intro value h
    have hpos : 0 < 128 ^ k := pow_pos (by norm_num) k
    have h128 : 128 ≤ value := by
      calc 128 = 1 * 128 := by norm_num
        _ ≤ 128 ^ k * 128 := Nat.mul_le_mul_right _ hpos
        _ = 128 ^ (k + 1) := by rw [pow_succ]
        _ ≤ value := h
    have hdiv : 128 ^ k ≤ value / 128 := by
      rw [Nat.le_div_iff_mul_le (by norm_num)]
      calc 128 ^ k * 128 = 128 ^ (k + 1) := by rw [pow_succ]
        _ ≤ value := h
    rw [write_varlen_loop_ge value h128, List.length_cons]
    have := ih _ hdiv
    omega

theorem write_varlen_slots_eq (value : Nat) :
    write_varlen_slots value = (write_varlen_loop value []).length + 1 := by
  unfold write_varlen_slots write_varlen_buffer
  rw [write_varlen_loop_append]
  simp

/-- C20 (encoder buffer bound): for every 32-bit value `v`, `write_varlen` stores
between one and five slots of its scratch buffer, at the indices 0, 1, ... in order,
and it stores at most four, so only at indices 0..3, exactly when `v < 2^28`: for
`v >= 2^28` a fifth slot is stored. The slots it reads back are the slots it stored,
from the last one down to slot 0. -/
theorem write_varlen_buffer_bound (v : Nat) (hv : v < 2 ^ 32) :
    1 ≤ write_varlen_slots v ∧ write_varlen_slots v ≤ 5 ∧
    (v < 2 ^ 28 ↔ write_varlen_slots v ≤ 4) ∧
    (2 ^ 28 ≤ v → write_varlen_slots v = 5) ∧
    (varlen_bytes v).length = write_varlen_slots v ∧
    varlen_bytes v = (write_varlen_buffer v).reverse := by
  have h5 : (write_varlen_loop v []).length ≤ 4 :=
    write_varlen_loop_length 4 v (by norm_num at hv ⊢; omega)
  have hlow : v < 2 ^ 28 → (write_varlen_loop v []).length ≤ 3 := fun h =>
    write_varlen_loop_length 3 v (by norm_num at h ⊢; omega)
  have hhigh : 2 ^ 28 ≤ v → 4 ≤ (write_varlen_loop v []).length := fun h =>
    write_varlen_loop_length_ge 4 v (by norm_num at h ⊢; omega)
  rw [write_varlen_slots_eq]
  refine ⟨by omega, by omega, ⟨fun h => by have := hlow h; omega, fun h => ?_⟩,
    fun h => by have := hhigh h; omega, ?_, rfl⟩
  · by_contra hge
    have := hhigh (by omega)
    omega
  · rw [varlen_bytes_eq]; simp

theorem write_varlen_buffer_bound_witness :
    (268435456 : Nat) < 2 ^ 32 ∧ write_varlen_slots 268435456 = 5 :=
  ⟨by norm_num,
   (write_varlen_buffer_bound 268435456 (by norm_num)).2.2.2.1 (by norm_num)⟩

/-! ## Ticks and milliseconds -/

theorem capture_ticks_natCast (m : Nat) : capture_ticks (m : Int) = ((m * 480 / 500 : Nat) : Int) := by
  unfold capture_ticks
  rw [Int.tdiv_eq_ediv (by positivity) (by norm_num)]
  omega

theorem playback_ms_exact (d : Nat) (h : d ≤ 8589934) : playback_ms d = d * 500 / 480 := by
  unfold playback_ms ppq
  rw [Nat.mod_eq_of_lt (by omega)]

/-- C15 (playback delay, evaluated): for the delta-time 8589935, which is below
`0x0FFFFFFF`, the product `delta * 500` wraps around in 32-bit unsigned arithmetic;
`do_play` reads this delta-time from the bytes 84 8C A4 6F and asks `nanosleep` for 0
seconds and 0 nanoseconds, while `floor(8589935 * 500 / 480)` is 8947848 ms. -/
theorem playback_delay_wraps :
    (8589935 : Nat) ≤ 0x0FFFFFFF ∧
    8589935 * 500 / 480 = 8947848 ∧
    playback_ms 8589935 = 0 ∧
    play_delay 8589935 = some (0, 0) ∧
    varlen_bytes 8589935 = [0x84, 0x8C, 0xA4, 0x6F] ∧
    (play_iter (at_pos ([0x84, 0x8C, 0xA4, 0x6F] ++ [0x90, 60, 100]) 0)).1
      = ⟨8589935, some (0, 0), some [0x09, 0x90, 60, 100]⟩ := by
  have hv : varlen_bytes 8589935 = [0x84, 0x8C, 0xA4, 0x6F] := by
    rw [varlen_bytes_eq, write_varlen_loop_ge 8589935 (by norm_num),
      write_varlen_loop_ge _ (by norm_num), write_varlen_loop_ge _ (by norm_num),
      write_varlen_loop_lt _ (by norm_num)]
    rfl
  refine ⟨by norm_num, by norm_num, by decide, by decide, hv, ?_⟩
  have h := play_iter_event_layout [] [] 8589935 0x90 60 100 (by norm_num) (by norm_num)
  have hlay : event_layout 8589935 0x90 60 100 = [0x84, 0x8C, 0xA4, 0x6F] ++ [0x90, 60, 100] := by
    unfold event_layout
    rw [hv, if_neg (by decide)]
    rfl
  rw [hlay] at h
  simp only [List.nil_append, List.append_nil, List.length_nil] at h
  rw [h]
  have hd : play_delay 8589935 = some (0, 0) := by decide
  rw [hd]
  simp
  decide

/-- C16 as stated fails at one millisecond: the capture formula gives 0 ticks, which
is below `2^28`, and the playback formula gives back 0 ms, not 1. It also fails where
`ticks * 500` leaves 32 bits: 8947850 ms are 8589936 ticks, still below `2^28`, and
the playback formula gives back 1 ms. -/
theorem capture_then_playback_loses_one_ms :
    to_unsigned (capture_ticks 1) = 0 ∧ to_unsigned (capture_ticks 1) < 2 ^ 28 ∧
    playback_ms (to_unsigned (capture_ticks 1)) = 0 ∧
    playback_ms (to_unsigned (capture_ticks 1)) ≠ 1 ∧
    to_unsigned (capture_ticks 8947850) = 8589936 ∧
    to_unsigned (capture_ticks 8947850) < 2 ^ 28 ∧
    playback_ms (to_unsigned (capture_ticks 8947850)) = 1 ∧
    playback_ms (to_unsigned (capture_ticks 8947850)) ≠ 8947850 := by
  decide

/-- C16 amended (capture and playback conversion): for every elapsed time of `m >= 0`
whole milliseconds whose tick count `m * 480 / 500` is at most 8589934 (so that
`ticks * 500` fits 32 bits), converting to ticks with the capture formula and back
with the playback formula yields `m` when `m` is a multiple of 25 and `m - 1`
otherwise: the result is never above `m`, never more than one millisecond below it,
and equal to `m` exactly for the multiples of 25. -/
theorem playback_inverts_capture (m : Nat) (h : capture_ticks (m : Int) ≤ 8589934) :
    playback_ms (to_unsigned (capture_ticks (m : Int))) ≤ m ∧
    m ≤ playback_ms (to_unsigned (capture_ticks (m : Int))) + 1 ∧
    (playback_ms (to_unsigned (capture_ticks (m : Int))) = m ↔ m % 25 = 0) ∧
    playback_ms (to_unsigned (capture_ticks (m : Int))) = if m % 25 = 0 then m else m - 1 := by
  rw [capture_ticks_natCast] at h ⊢
  have ht : m * 480 / 500 ≤ 8589934 := by omega
  rw [to_unsigned_natCast, Nat.mod_eq_of_lt (by omega), playback_ms_exact _ ht]
  have h1 : m * 480 / 500 * 500 / 480 ≤ m := by omega
  have h2 : m ≤ m * 480 / 500 * 500 / 480 + 1 := by omega
  have h3 : m * 480 / 500 * 500 / 480 = m ↔ m % 25 = 0 := by omega
  refine ⟨h1, h2, h3, ?_⟩
  generalize m * 480 / 500 * 500 / 480 = r at h1 h2 h3 ⊢
  split
  · exact h3.2 (by assumption)
  · have : r ≠ m := fun hr => by have := h3.1 hr; contradiction
    omega

theorem playback_inverts_capture_witness :
    capture_ticks ((1001 : Nat) : Int) ≤ 8589934 ∧
    (playback_ms (to_unsigned (capture_ticks ((1001 : Nat) : Int))) ≤ 1001 ∧
     1001 ≤ playback_ms (to_unsigned (capture_ticks ((1001 : Nat) : Int))) + 1 ∧
     (playback_ms (to_unsigned (capture_ticks ((1001 : Nat) : Int))) = 1001 ↔ 1001 % 25 = 0) ∧
     playback_ms (to_unsigned (capture_ticks ((1001 : Nat) : Int)))
       = if 1001 % 25 = 0 then 1001 else 1001 - 1) :=
  ⟨by decide, playback_inverts_capture 1001 (by decide)⟩

/-! ## Progress of the player -/

theorem fgetc_cases (f : FILE) :
    (fgetc f = (none, f) ∧ f.data.length ≤ f.pos) ∨
    (∃ c, fgetc f = (some c, { f with pos := f.pos + 1 }) ∧ f.pos < f.data.length) := by
  cases hget : f.data[f.pos]? with
  | none =>
    left
    exact ⟨by simp [fgetc, hget], by
      rcases Nat.lt_or_ge f.pos f.data.length with hlt | hge
      · rw [List.getElem?_eq_getElem hlt] at hget; simp at hget
      · exact hge⟩
  | some c =>
    right
    exact ⟨c, by simp [fgetc, hget], (List.getElem?_eq_some_iff.mp hget).1⟩

theorem fgetc_data_pos (f : FILE) :
    (fgetc f).2.data = f.data ∧ f.pos ≤ (fgetc f).2.pos ∧ (fgetc f).2.pos ≤ f.pos + 1 := by
  rcases fgetc_cases f with ⟨h, _⟩ | ⟨c, h, _⟩ <;> rw [h] <;> simp

theorem fgetc_some_pos (f g : FILE) (c : Nat) (h : fgetc f = (some c, g)) :
    g.data = f.data ∧ g.pos = f.pos + 1 ∧ f.pos < f.data.length := by
  rcases fgetc_cases f with ⟨h0, _⟩ | ⟨c0, h0, hlt⟩
  · rw [h0] at h; simp at h
  · rw [h0] at h
    simp only [Prod.mk.injEq] at h
    rw [← h.2]
    exact ⟨rfl, rfl, hlt⟩

theorem read_varlen_loop_progress (n : Nat) :
    ∀ (f : FILE) (value : Nat), f.data.length - f.pos ≤ n →
      (read_varlen_loop f value).2.data = f.data ∧
      f.pos ≤ (read_varlen_loop f value).2.pos ∧
      (f.pos < f.data.length → f.pos < (read_varlen_loop f value).2.pos) := by
  induction n with
  | zero =>
    intro f value hn
    rcases fgetc_cases f with ⟨h, _⟩ | ⟨c, _, hlt⟩
    · rw [read_varlen_loop_eof f f value h]
      exact ⟨rfl, Nat.le_refl _, fun hlt => by omega⟩
    · omega
  | succ n ih =>
    intro f value hn
    rcases fgetc_cases f with ⟨h, hge⟩ | ⟨c, h, hlt⟩
    · rw [read_varlen_loop_eof f f value h]
      exact ⟨rfl, Nat.le_refl _, fun hlt => by omega⟩
    · by_cases hc : c &&& 0x80 ≠ 0
      · rw [read_varlen_loop_cont f _ value c h hc]
        obtain ⟨h1, h2, _⟩ := ih { f with pos := f.pos + 1 } (varlen_accumulate value c)
          (by simp only []; omega)
        simp only [] at h1 h2
        exact ⟨h1, by omega, fun _ => by omega⟩
      · rw [read_varlen_loop_last f _ value c h (by simpa using hc)]
        exact ⟨rfl, by simp, fun _ => by simp⟩

theorem read_varlen_progress (f : FILE) :
    (read_varlen f).2.data = f.data ∧ f.pos ≤ (read_varlen f).2.pos ∧
    (f.pos < f.data.length → f.pos < (read_varlen f).2.pos) :=
  read_varlen_loop_progress _ f 0 (Nat.le_refl _)

theorem to_offset_ge (c : Option Nat) : -1 ≤ to_offset c := by
  cases c with
  | none => simp [to_offset]
  | some b => simp only [to_offset]; omega

theorem fseek_cur_data_pos (f : FILE) (offset : Int) (h : 0 ≤ (f.pos : Int) + offset) :
    (fseek_cur f offset).data = f.data ∧
    ((fseek_cur f offset).pos : Int) = (f.pos : Int) + offset := by
  unfold fseek_cur
  rw [if_pos h]
  exact ⟨rfl, Int.toNat_of_nonneg h⟩

theorem play_iter_progress (f g : FILE) (it : PlayIter) (h : play_iter f = (it, some g)) :
    g.data = f.data ∧ f.pos < g.pos ∧ f.pos < f.data.length := by
  obtain ⟨hd1, hp1, hs1⟩ := read_varlen_progress f
  have h1 : read_varlen f = ((read_varlen f).1, (read_varlen f).2) := rfl
  rcases fgetc_cases (read_varlen f).2 with ⟨h2, _⟩ | ⟨status, h2c, hlt1⟩
  · rw [play_iter_eof f _ _ _ h1 h2] at h
    simp at h
  · obtain ⟨f2, h2, hd2, hp2⟩ : ∃ f2, fgetc (read_varlen f).2 = (some status, f2)
        ∧ f2.data = (read_varlen f).2.data ∧ f2.pos = (read_varlen f).2.pos + 1 :=
      ⟨_, h2c, rfl, rfl⟩
    rw [hd1] at hlt1
    have hlt0 : f.pos < f.data.length := by omega
    have hp01 : f.pos < (read_varlen f).2.pos := hs1 hlt0
    obtain ⟨hd3, hp3, _⟩ := fgetc_data_pos f2
    obtain ⟨hd4, hp4, _⟩ := fgetc_data_pos (fgetc f2).2
    have h3 : fgetc f2 = ((fgetc f2).1, (fgetc f2).2) := rfl
    have h4 : fgetc (fgetc f2).2 = ((fgetc (fgetc f2).2).1, (fgetc (fgetc f2).2).2) := rfl
    by_cases hff : status = 0xFF
    · subst hff
      by_cases hk : (fgetc f2).1 = some 0x2F
      · rw [hk] at h3
        rw [play_iter_end_of_track f _ _ _ _ _ _ h1 h2 h3 h4] at h
        simp at h
      · rw [play_iter_meta f _ _ _ _ _ _ _ h1 h2 h3 hk h4] at h
        simp only [Prod.mk.injEq, Option.some.injEq] at h
        have hoff := to_offset_ge (fgetc (fgetc f2).2).1
        obtain ⟨hd5, hp5⟩ := fseek_cur_data_pos (fgetc (fgetc f2).2).2
          (to_offset (fgetc (fgetc f2).2).1) (by omega)
        rw [← h.2]
        refine ⟨by rw [hd5, hd4, hd3, hd2, hd1], by omega, hlt0⟩
    · by_cases hm : (status &&& 0xF0) = 0xC0 ∨ (status &&& 0xF0) = 0xD0
      · rw [play_iter_one_data f _ _ _ _ _ _ h1 h2 hff hm h3] at h
        simp only [Prod.mk.injEq, Option.some.injEq] at h
        rw [← h.2]
        exact ⟨by rw [hd3, hd2, hd1], by omega, hlt0⟩
      · rw [play_iter_two_data f _ _ _ _ _ _ _ _ h1 h2 hff hm h3 h4] at h
        simp only [Prod.mk.injEq, Option.some.injEq] at h
        rw [← h.2]
        exact ⟨by rw [hd4, hd3, hd2, hd1], by omega, hlt0⟩

theorem play_loop_ends (n : Nat) :
    ∀ f : FILE, f.data.length - f.pos < n →
      ∃ its, play_loop n f = some its ∧ its.length ≤ n := by
  induction n with
  | zero => intro f h; omega
  | succ n ih =>
    intro f hn
    rw [play_loop]
    cases hpi : play_iter f with
    | mk it next =>
      cases next with
      | none => exact ⟨[it], rfl, by simp⟩
      | some g =>
        obtain ⟨hd, hp, hlt⟩ := play_iter_progress f g it hpi
        obtain ⟨its, hits, hlen⟩ := ih g (by rw [hd]; omega)
        exact ⟨it :: its, by simp [hits], by simp; omega⟩

theorem play_loop_more_fuel (n : Nat) :
    ∀ (f : FILE) (its : List PlayIter), play_loop n f = some its →
      ∀ m, n ≤ m → play_loop m f = some its := by
  induction n with
  | zero => intro f its h; simp [play_loop] at h
  | succ n ih =>
    intro f its h m hm
    obtain ⟨k, rfl⟩ : ∃ k, m = k + 1 := ⟨m - 1, by omega⟩
    rw [play_loop] at h ⊢
    cases hpi : play_iter f with
    | mk it next =>
      rw [hpi] at h
      cases next with
      | none => exact h
      | some g =>
        simp only [] at h ⊢
        cases hrec : play_loop n g with
        | none => rw [hrec] at h; simp at h
        | some its1 =>
          rw [hrec] at h
          rw [ih g its1 hrec k (by omega)]
          exact h

theorem play_loop_truncated_meta :
    play_loop 3 (at_pos [0x00, 0xFF, 0x51] 0)
      = some [⟨0, none, none⟩, ⟨81, some (0, 84000000), none⟩] := by
  have hr1 : read_varlen (at_pos [0x00, 0xFF, 0x51] 0) = (0, at_pos [0x00, 0xFF, 0x51] 1) := by
    rw [read_varlen_of_split _ 0 [] [0xFF, 0x51] 0 (by norm_num)
      (by simp [varlen_bytes_zero]) rfl, varlen_bytes_zero]
    rfl
  have hi1 : play_iter (at_pos [0x00, 0xFF, 0x51] 0)
      = (⟨0, none, none⟩, some (at_pos [0x00, 0xFF, 0x51] 2)) := by
    rw [play_iter_meta (at_pos [0x00, 0xFF, 0x51] 0) (at_pos [0x00, 0xFF, 0x51] 1)
      (at_pos [0x00, 0xFF, 0x51] 2) (at_pos [0x00, 0xFF, 0x51] 3)
      (at_pos [0x00, 0xFF, 0x51] 3) 0 (some 0x51) none hr1
      (fgetc_of_split _ 1 [0] [0x51] 0xFF (by simp) rfl)
      (fgetc_of_split _ 2 [0, 0xFF] [] 0x51 (by simp) rfl)
      (by decide)
      (fgetc_eof _ 3 (by simp))]
    decide
  have hv : varlen_bytes 81 = [81] := varlen_bytes_lt 81 (by norm_num)
  have hr2 : read_varlen (at_pos [0x00, 0xFF, 0x51] 2) = (81, at_pos [0x00, 0xFF, 0x51] 3) := by
    rw [read_varlen_of_split _ 2 [0, 0xFF] [] 81 (by norm_num) (by simp [hv]) rfl, hv]
    rfl
  have hi2 : play_iter (at_pos [0x00, 0xFF, 0x51] 2)
      = (⟨81, some (0, 84000000), none⟩, none) := by
    rw [play_iter_eof _ _ _ 81 hr2 (fgetc_eof _ 3 (by simp))]
    decide
  rw [play_loop, hi1]
  simp only []
  rw [play_loop, hi2]
  rfl

/-- C19 (the reader's sequence is finite): for every finite byte source, one pass of
`do_play` with no cancellation ends: with more rounds allowed than the file has
bytes the event loop returns, after at most one round per byte and one more, and it
sends at most one packet per round. The same holds for the event loop started at any
position of any stream. A meta event cut off before its length byte, where `fgetc`
answers `EOF` and the reader seeks by -1, ends after two rounds. -/
theorem playback_pass_is_finite (bytes : List Nat) (f : FILE) :
    (∃ its, (∀ fuel, bytes.length < fuel → do_play_pass fuel bytes = some its) ∧
      its.length ≤ bytes.length + 1 ∧ (sent_events its).length ≤ its.length) ∧
    (∃ its, (∀ fuel, f.data.length - f.pos < fuel → play_loop fuel f = some its) ∧
      its.length ≤ f.data.length - f.pos + 1) ∧
    play_loop 3 (at_pos [0x00, 0xFF, 0x51] 0)
      = some [⟨0, none, none⟩, ⟨81, some (0, 84000000), none⟩] := by
  have hgen : ∀ g : FILE, ∃ its,
      (∀ fuel, g.data.length - g.pos < fuel → play_loop fuel g = some its) ∧
      its.length ≤ g.data.length - g.pos + 1 := by
    intro g
    obtain ⟨its, hits, hlen⟩ := play_loop_ends (g.data.length - g.pos + 1) g (by omega)
    exact ⟨its, fun fuel hfuel => play_loop_more_fuel _ g its hits fuel (by omega), hlen⟩
  refine ⟨?_, hgen f, play_loop_truncated_meta⟩
  obtain ⟨its, hits, hlen⟩ := hgen (at_pos bytes 22)
  refine ⟨its, fun fuel hfuel => ?_, ?_, ?_⟩
  · rw [do_play_pass_start]
    exact hits fuel (by simp only [at_pos]; omega)
  · simp only [at_pos] at hlen
    omega
  · unfold sent_events
    exact List.length_filterMap_le _ _

/-! ## End-Of-Track -/

theorem play_iter_of_parses_end_of_track (f : FILE) (h : parses_end_of_track f) :
    play_iter f = (⟨(read_varlen f).1, play_delay (read_varlen f).1, none⟩, none) := by
  have h1 : read_varlen f = ((read_varlen f).1, (read_varlen f).2) := rfl
  have h2 : fgetc (read_varlen f).2 = (some 0xFF, (fgetc (read_varlen f).2).2) := by
    rw [← h.1]
  have h3 : fgetc (fgetc (read_varlen f).2).2
      = (some 0x2F, (fgetc (fgetc (read_varlen f).2).2).2) := by
    rw [← h.2]
  exact play_iter_end_of_track f _ _ _ _ _ _ h1 h2 h3 rfl

theorem play_streams_end_of_track (fuel : Nat) :
    ∀ (f : FILE) (its : List PlayIter), play_loop fuel f = some its →
      (play_streams fuel f).length = its.length ∧
      ∀ i g, (play_streams fuel f)[i]? = some g → parses_end_of_track g →
        i + 1 = its.length ∧ ∃ it, its[i]? = some it ∧ it.sent = none := by
  induction fuel with
  | zero => intro f its h; simp [play_loop] at h
  | succ n ih =>
    intro f its h
    rw [play_loop] at h
    rw [play_streams]
    cases hpi : play_iter f with
    | mk it next =>
      rw [hpi] at h
      cases next with
      | none =>
        simp only [Option.some.injEq] at h
        subst h
        refine ⟨rfl, ?_⟩
        intro i g hg hparse
        cases i with
        | zero =>
          simp only [List.getElem?_cons_zero, Option.some.injEq] at hg
          subst hg
          rw [play_iter_of_parses_end_of_track f hparse] at hpi
          simp only [Prod.mk.injEq] at hpi
          exact ⟨rfl, it, rfl, by rw [← hpi.1]⟩
        | succ j => simp at hg
      | some g1 =>
        simp only [] at h ⊢
        cases hrec : play_loop n g1 with
        | none => rw [hrec] at h; simp at h
        | some its1 =>
          rw [hrec] at h
          simp only [Option.map_some', Option.some.injEq] at h
          subst h
          obtain ⟨hlen, hstop⟩ := ih g1 its1 hrec
          refine ⟨by simp [hlen], ?_⟩
          intro i g hg hparse
          cases i with
          | zero =>
            simp only [List.getElem?_cons_zero, Option.some.injEq] at hg
            subst hg
            rw [play_iter_of_parses_end_of_track f hparse] at hpi
            simp at hpi
          | succ j =>
            simp only [List.getElem?_cons_succ] at hg
            obtain ⟨hj, it1, hit1, hsent⟩ := hstop j g hg hparse
            exact ⟨by simp; omega, it1, by simpa using hit1, hsent⟩

theorem play_loop_note_then_end :
    play_loop 5 (at_pos ([] ++ events_layout [⟨0, 0x90, 60, 100⟩] ++ end_of_track
        ++ [0x00, 0x90, 61, 100]) ([] : List Nat).length)
      = some ([(⟨0, 0x90, 60, 100⟩ : TimedEvent)].map event_round ++ [meta_round]) :=
  play_loop_events [⟨0, 0x90, 60, 100⟩] (by decide) [] [0x00, 0x90, 61, 100] 5 (by decide)

/-- C12 (End-Of-Track stops iteration): for every stream and every pass of the event
loop over it that returns, the round that parses an End-Of-Track meta event (status
byte 0xFF, kind byte 0x2F) is the last round of the pass and sends no packet: the
loop runs no round, and so sends no packet, for the bytes behind it. -/
theorem end_of_track_stops (fuel : Nat) (f : FILE) (its : List PlayIter)
    (h : play_loop fuel f = some its) :
    (play_streams fuel f).length = its.length ∧
    ∀ i g, (play_streams fuel f)[i]? = some g → parses_end_of_track g →
      i + 1 = its.length ∧ ∃ it, its[i]? = some it ∧ it.sent = none :=
  play_streams_end_of_track fuel f its h

theorem end_of_track_stops_witness :
    play_loop 5 (at_pos ([] ++ events_layout [⟨0, 0x90, 60, 100⟩] ++ end_of_track
        ++ [0x00, 0x90, 61, 100]) ([] : List Nat).length)
      = some ([(⟨0, 0x90, 60, 100⟩ : TimedEvent)].map event_round ++ [meta_round]) ∧
    ((play_streams 5 (at_pos ([] ++ events_layout [⟨0, 0x90, 60, 100⟩] ++ end_of_track
        ++ [0x00, 0x90, 61, 100]) ([] : List Nat).length)).length
      = ([(⟨0, 0x90, 60, 100⟩ : TimedEvent)].map event_round ++ [meta_round]).length ∧
    ∀ i g, (play_streams 5 (at_pos ([] ++ events_layout [⟨0, 0x90, 60, 100⟩] ++ end_of_track
        ++ [0x00, 0x90, 61, 100]) ([] : List Nat).length))[i]? = some g →
      parses_end_of_track g →
      i + 1 = ([(⟨0, 0x90, 60, 100⟩ : TimedEvent)].map event_round ++ [meta_round]).length ∧
      ∃ it, ([(⟨0, 0x90, 60, 100⟩ : TimedEvent)].map event_round ++ [meta_round])[i]? = some it
        ∧ it.sent = none) :=
  ⟨play_loop_note_then_end, end_of_track_stops 5 _ _ play_loop_note_then_end⟩

/-! ## Meta events and truncated files -/

theorem varlen_bytes_129 : varlen_bytes 129 = [0x81, 0x01] := by
  rw [varlen_bytes_eq, write_varlen_loop_ge 129 (by norm_num),
    write_varlen_loop_lt _ (by norm_num)]
  rfl

/-- C14 as stated fails for a data length of 129: the meta event FF 7F with the length
field 81 01 and 129 data bytes ends at offset 134, but the player reads the single
byte 0x81 as the length, skips 129 bytes from offset 4 and resumes at offset 133, on
the last data byte. -/
theorem meta_length_read_as_one_byte :
    varlen_bytes 129 = [0x81, 0x01] ∧
    play_iter (at_pos ([0x00, 0xFF, 0x7F] ++ varlen_bytes 129 ++ List.replicate 129 0xAA
        ++ [0x00, 0x90, 60, 100]) 0)
      = (⟨0, none, none⟩,
         some (at_pos ([0x00, 0xFF, 0x7F] ++ varlen_bytes 129 ++ List.replicate 129 0xAA
           ++ [0x00, 0x90, 60, 100]) 133)) ∧
    133 ≠ 3 + (varlen_bytes 129).length + (List.replicate 129 0xAA).length := by
  refine ⟨varlen_bytes_129, ?_, by rw [varlen_bytes_129]; simp⟩
  rw [varlen_bytes_129]
  have hr : read_varlen (at_pos ([0x00, 0xFF, 0x7F] ++ [0x81, 0x01] ++ List.replicate 129 0xAA
      ++ [0x00, 0x90, 60, 100]) 0)
      = (0, at_pos ([0x00, 0xFF, 0x7F] ++ [0x81, 0x01] ++ List.replicate 129 0xAA
          ++ [0x00, 0x90, 60, 100]) 1) := by
    rw [read_varlen_of_split _ 0 []
      ([0xFF, 0x7F, 0x81, 0x01] ++ List.replicate 129 0xAA ++ [0x00, 0x90, 60, 100]) 0
      (by norm_num) (by simp [varlen_bytes_zero]) rfl, varlen_bytes_zero]
    rfl
  rw [play_iter_meta _ _ _ _ _ 0 (some 0x7F) (some 0x81) hr
    (fgetc_of_split _ 1 [0]
      ([0x7F, 0x81, 0x01] ++ List.replicate 129 0xAA ++ [0x00, 0x90, 60, 100]) 0xFF
      (by simp) rfl)
    (fgetc_of_split _ 2 [0, 0xFF]
      ([0x81, 0x01] ++ List.replicate 129 0xAA ++ [0x00, 0x90, 60, 100]) 0x7F
      (by simp) rfl)
    (by decide)
    (fgetc_of_split _ 3 [0, 0xFF, 0x7F]
      ([0x01] ++ List.replicate 129 0xAA ++ [0x00, 0x90, 60, 100]) 0x81
      (by simp) rfl)]
  have hoff : to_offset (some 0x81) = ((129 : Nat) : Int) := rfl
  rw [hoff, fseek_cur_nat]
  rfl

/-- C14 amended (meta event skipping): for every meta event other than End-Of-Track
that is laid out as 0xFF, kind, a length field of one byte and that many data bytes,
so with a data length below 128, the player consumes the kind byte, the length byte
and exactly the data bytes, sends no packet and resumes reading at the next
delta-time. -/
theorem meta_event_skipped (pre data rest : List Nat) (delta kind : Nat)
    (hdelta : delta < 2 ^ 28) (hkind : kind ≠ 0x2F) (hlen : data.length < 128) :
    varlen_bytes data.length = [data.length] ∧
    play_iter (at_pos (pre ++ varlen_bytes delta ++ [0xFF, kind] ++ varlen_bytes data.length
        ++ data ++ rest) pre.length)
      = (⟨delta, play_delay delta, none⟩,
         some (at_pos (pre ++ varlen_bytes delta ++ [0xFF, kind] ++ varlen_bytes data.length
             ++ data ++ rest)
           (pre.length + (varlen_bytes delta).length + 2 + (varlen_bytes data.length).length
             + data.length))) := by
  have hv : varlen_bytes data.length = [data.length] := varlen_bytes_lt _ hlen
  refine ⟨hv, ?_⟩
  rw [hv]
  rw [play_iter_meta _ _ _ _ _ delta (some kind) (some data.length)
    (read_varlen_of_split _ _ pre ([0xFF, kind] ++ [data.length] ++ data ++ rest) delta
      (by norm_num at hdelta; omega) (by simp) rfl)
    (fgetc_of_split _ _ (pre ++ varlen_bytes delta) ([kind] ++ [data.length] ++ data ++ rest)
      0xFF (by simp) (by simp))
    (fgetc_of_split _ _ (pre ++ varlen_bytes delta ++ [0xFF]) ([data.length] ++ data ++ rest)
      kind (by simp) (by simp; omega))
    (by simpa using hkind)
    (fgetc_of_split _ _ (pre ++ varlen_bytes delta ++ [0xFF, kind]) (data ++ rest)
      data.length (by simp) (by simp; omega))]
  have hoff : to_offset (some data.length) = ((data.length : Nat) : Int) := rfl
  rw [hoff, fseek_cur_nat]
  simp [Nat.add_assoc]

theorem meta_event_skipped_witness :
    (96 : Nat) < 2 ^ 28 ∧ (0x51 : Nat) ≠ 0x2F ∧ [0x07, 0xA1, 0x20].length < 128 ∧
    (varlen_bytes [0x07, 0xA1, 0x20].length = [[0x07, 0xA1, 0x20].length] ∧
    play_iter (at_pos ([1, 2] ++ varlen_bytes 96 ++ [0xFF, 0x51]
        ++ varlen_bytes [0x07, 0xA1, 0x20].length ++ [0x07, 0xA1, 0x20] ++ [9]) [1, 2].length)
      = (⟨96, play_delay 96, none⟩,
         some (at_pos ([1, 2] ++ varlen_bytes 96 ++ [0xFF, 0x51]
             ++ varlen_bytes [0x07, 0xA1, 0x20].length ++ [0x07, 0xA1, 0x20] ++ [9])
           ([1, 2].length + (varlen_bytes 96).length + 2
             + (varlen_bytes [0x07, 0xA1, 0x20].length).length
             + [0x07, 0xA1, 0x20].length)))) :=
  ⟨by norm_num, by norm_num, by decide,
   meta_event_skipped [1, 2] [0x07, 0xA1, 0x20] [9] 96 0x51 (by norm_num) (by norm_num)
     (by decide)⟩

theorem read_varlen_at_eof (l : List Nat) (n : Nat) (h : l.length ≤ n) :
    read_varlen (at_pos l n) = (0, at_pos l n) :=
  read_varlen_loop_eof _ _ 0 (fgetc_eof l n h)

theorem smf_written_one_note :
    (smf_written [⟨0, 0x90, 60, 100⟩]).data
      = smf_preamble ++ [0, 0, 0, 15] ++ set_tempo ++ [0x00, 0x90, 60, 100] ++ end_of_track := by
  rw [smf_written_eq _ (by decide)]
  have hl : events_layout [⟨0, 0x90, 60, 100⟩] = [0x00, 0x90, 60, 100] := by
    simp only [events_layout, event_layout, varlen_bytes_zero, List.map_cons, List.map_nil,
      List.flatten_cons, List.flatten_nil]
    rw [if_neg (by decide)]
    rfl
  rw [hl]
  have hb : be32 (((set_tempo ++ [0x00, 0x90, 60, 100]).length + 4) % 4294967296)
      = [0, 0, 0, 15] := by decide
  rw [hb]
  simp [at_pos]

theorem do_play_pass_truncated_note :
    do_play_pass 4 (smf_preamble ++ [0, 0, 0, 15] ++ set_tempo ++ [0x00, 0x90, 60])
      = some [meta_round, ⟨0, none, some [0x09, 0x90, 60, 0xFF]⟩, ⟨0, none, none⟩] := by
  have hi1 := play_iter_set_tempo (smf_preamble ++ [0, 0, 0, 15]) [0x00, 0x90, 60]
  have hlen : (smf_preamble ++ [0, 0, 0, 15]).length = 22 := rfl
  rw [hlen] at hi1
  have hi2 : play_iter (at_pos (smf_preamble ++ [0, 0, 0, 15] ++ set_tempo ++ [0x00, 0x90, 60]) 29)
      = (⟨0, none, some [0x09, 0x90, 60, 0xFF]⟩,
         some (at_pos (smf_preamble ++ [0, 0, 0, 15] ++ set_tempo ++ [0x00, 0x90, 60]) 32)) := by
    have hr : read_varlen
        (at_pos (smf_preamble ++ [0, 0, 0, 15] ++ set_tempo ++ [0x00, 0x90, 60]) 29)
        = (0, at_pos (smf_preamble ++ [0, 0, 0, 15] ++ set_tempo ++ [0x00, 0x90, 60]) 30) := by
      rw [read_varlen_of_split _ 29 (smf_preamble ++ [0, 0, 0, 15] ++ set_tempo) [0x90, 60] 0
        (by norm_num) (by simp [varlen_bytes_zero]) (by decide), varlen_bytes_zero]
      rfl
    rw [play_iter_two_data _ _ _ _ _ 0 0x90 (some 60) none hr
      (fgetc_of_split _ 30 (smf_preamble ++ [0, 0, 0, 15] ++ set_tempo ++ [0]) [60] 0x90
        (by simp) (by decide))
      (by decide) (by decide)
      (fgetc_of_split _ 31 (smf_preamble ++ [0, 0, 0, 15] ++ set_tempo ++ [0, 0x90]) [] 60
        (by simp) (by decide))
      (fgetc_eof _ 32 (by decide))]
    decide
  have hi3 : play_iter (at_pos (smf_preamble ++ [0, 0, 0, 15] ++ set_tempo ++ [0x00, 0x90, 60]) 32)
      = (⟨0, none, none⟩, none) := by
    rw [play_iter_eof _ _ _ 0 (read_varlen_at_eof _ 32 (by decide)) (fgetc_eof _ 32 (by decide))]
    decide
  rw [do_play_pass_start, play_loop, hi1]
  simp only []
  rw [play_loop, hi2]
  simp only []
  rw [play_loop, hi3]
  rfl

/-- C13 (premature end-of-source, evaluated): the file `do_record` writes for one
Note-On (status 0x90, note 60, velocity 100) plays back as the packet 09 90 3C 64;
cut off behind the note number, after 32 bytes, it plays back as the packet
09 90 3C FF, whose last byte comes from the `EOF` that `fgetc` answered and is not a
byte of the file, before the pass ends at the next round. -/
theorem truncated_event_sends_eof_byte :
    (smf_written [⟨0, 0x90, 60, 100⟩]).data
      = smf_preamble ++ [0, 0, 0, 15] ++ set_tempo ++ [0x00, 0x90, 60, 100] ++ end_of_track ∧
    (smf_preamble ++ [0, 0, 0, 15] ++ set_tempo ++ [0x00, 0x90, 60, 100] ++ end_of_track).take 32
      = smf_preamble ++ [0, 0, 0, 15] ++ set_tempo ++ [0x00, 0x90, 60] ∧
    do_play_pass 4 (smf_written [⟨0, 0x90, 60, 100⟩]).data
      = some [meta_round, ⟨0, none, some [0x09, 0x90, 60, 100]⟩, meta_round] ∧
    do_play_pass 4 (smf_preamble ++ [0, 0, 0, 15] ++ set_tempo ++ [0x00, 0x90, 60])
      = some [meta_round, ⟨0, none, some [0x09, 0x90, 60, 0xFF]⟩, ⟨0, none, none⟩] := by
  refine ⟨smf_written_one_note, by decide, ?_, do_play_pass_truncated_note⟩
  rw [(do_play_pass_smf_written [⟨0, 0x90, 60, 100⟩] (by decide) 4 (by decide)).1]
  decide

/-! ## The Set-Tempo meta event -/

theorem recorded_skip (pre rest : List UsbPacket) (h : ∀ q ∈ pre, ¬ starts_recording q) :
    recorded (pre ++ rest) = recorded rest := by
  induction pre with
  | nil => rfl
  | cons q pre ih =>
    have hq : ¬ (((q.b0 &&& 0x0F) % 256 ≥ 0x8 ∧ (q.b0 &&& 0x0F) % 256 ≤ 0xE) ∧ is_note_on q) :=
      h q (List.mem_cons_self _ _)
    rw [List.cons_append]
    simp only [recorded]
    rw [if_neg hq]
    exact ih (fun x hx => h x (List.mem_cons_of_mem _ hx))

theorem recorded_first (p : UsbPacket) (post : List UsbPacket) (hp : starts_recording p) :
    recorded (p :: post)
      = ⟨delta_ticks p.start p.now, p.b1 % 256, p.b2 % 256, p.b3 % 256⟩
        :: recorded_from p.now post := by
  have hq : ((p.b0 &&& 0x0F) % 256 ≥ 0x8 ∧ (p.b0 &&& 0x0F) % 256 ≤ 0xE) ∧ is_note_on p := hp
  simp only [recorded]
  rw [if_pos hq]

theorem first_starting (ps : List UsbPacket) (h : ∃ p ∈ ps, starts_recording p) :
    ∃ pre p post, ps = pre ++ p :: post ∧ (∀ q ∈ pre, ¬ starts_recording q)
      ∧ starts_recording p := by
  induction ps with
  | nil => obtain ⟨p, hp, _⟩ := h; simp at hp
  | cons a ps ih =>
    by_cases ha : starts_recording a
    · exact ⟨[], a, ps, rfl, by simp, ha⟩
    · obtain ⟨p, hp, hsp⟩ := h
      rw [List.mem_cons] at hp
      rcases hp with rfl | hp
      · exact absurd hsp ha
      · obtain ⟨pre, q, post, hsplit, hpre, hq⟩ := ih ⟨p, hp, hsp⟩
        refine ⟨a :: pre, q, post, by rw [hsplit]; rfl, ?_, hq⟩
        intro x hx
        rw [List.mem_cons] at hx
        rcases hx with rfl | hx
        · exact ha
        · exact hpre x hx

theorem wire_note_on_starts (p : UsbPacket) (hw : in_wire_format p) (hn : is_note_on p) :
    starts_recording p := by
  refine ⟨?_, hn⟩
  have hs : (p.b1 % 256) &&& 240 = 144 := hn.1
  have hcin : (p.b0 &&& 0x0F) % 256 = (p.b1 % 256) >>> 4 := hw
  rw [land_240] at hs
  rw [Nat.shiftRight_eq_div_pow] at hcin
  have hlt : p.b1 % 256 < 256 := Nat.mod_lt _ (by norm_num)
  have h9 : p.b1 % 256 / 2 ^ 4 = 9 := by
    generalize p.b1 % 256 = s at hs hlt
    omega
  rw [hcin, h9]
  decide

/-- C11 (Set-Tempo once): for every sequence of packets in the wire format of the
specification (the code index number duplicates the high nibble of the status byte)
that contains at least one Note-On with non-zero velocity, and in which each
delta-time handed to `write_varlen` is below `2^28`, the recording of `do_record` is
the one its writing steps make with the Set-Tempo meta event written once, in front of
the events: the track starts with the bytes 00 FF 51 03 07 A1 20 (delta 0, three data
bytes with the big-endian value 500000), the first recorded event, that of the first
Note-On with non-zero velocity, follows immediately, then the later events and the
End-Of-Track. -/
theorem set_tempo_written_once (transfers : List Transfer)
    (hwire : ∀ p ∈ visited_packets transfers, in_wire_format p)
    (hnote : ∃ p ∈ visited_packets transfers, is_note_on p)
    (_hdelta : deltas_in_bounds (visited_packets transfers)) :
    ∃ pre p post, visited_packets transfers = pre ++ p :: post ∧
      (∀ q ∈ pre, ¬ is_note_on q) ∧ is_note_on p ∧
      do_record transfers
        = smf_written (⟨delta_ticks p.start p.now, p.b1 % 256, p.b2 % 256, p.b3 % 256⟩
            :: recorded_from p.now post) ∧
      (∃ len4, len4.length = 4 ∧
        (do_record transfers).data
          = smf_preamble ++ len4 ++ [0x00, 0xFF, 0x51, 0x03, 0x07, 0xA1, 0x20]
            ++ event_layout (delta_ticks p.start p.now) (p.b1 % 256) (p.b2 % 256) (p.b3 % 256)
            ++ events_layout (recorded_from p.now post) ++ [0x00, 0xFF, 0x2F, 0x00]) ∧
      0x07 * 65536 + 0xA1 * 256 + 0x20 = 500000 := by
  have h : ∃ p ∈ visited_packets transfers, starts_recording p := by
    obtain ⟨p, hp, hn⟩ := hnote
    exact ⟨p, hp, wire_note_on_starts p (hwire p hp) hn⟩
  obtain ⟨pre, p, post, hsplit, hpre, hp⟩ := first_starting _ h
  have hquiet : ∀ q ∈ pre, ¬ is_note_on q := by
    intro q hq hn
    refine hpre q hq (wire_note_on_starts q (hwire q ?_) hn)
    rw [hsplit]
    exact List.mem_append_left _ hq
  have hrec : recorded (visited_packets transfers)
      = ⟨delta_ticks p.start p.now, p.b1 % 256, p.b2 % 256, p.b3 % 256⟩
        :: recorded_from p.now post := by
    rw [hsplit, recorded_skip pre _ hpre, recorded_first p post hp]
  have hw : do_record transfers = smf_written (recorded (visited_packets transfers)) := by
    rw [do_record_eq_record_stream]
    exact record_stream_eq_smf_written _ (by rw [hrec]; exact List.cons_ne_nil _ _)
  refine ⟨pre, p, post, hsplit, hquiet, hp.2, by rw [hw, hrec], ?_, by norm_num⟩
  rw [hw, smf_written_eq _ (recorded_bytes _), hrec]
  refine ⟨be32 (((set_tempo ++ events_layout
    (⟨delta_ticks p.start p.now, p.b1 % 256, p.b2 % 256, p.b3 % 256⟩
      :: recorded_from p.now post)).length + 4) % 4294967296), be32_length _, ?_⟩
  simp [at_pos, set_tempo, end_of_track, events_layout]

theorem set_tempo_written_once_witness :
    (∀ p ∈ visited_packets [sample_control, sample_notes], in_wire_format p) ∧
    (∃ p ∈ visited_packets [sample_control, sample_notes], is_note_on p) ∧
    deltas_in_bounds (visited_packets [sample_control, sample_notes]) ∧
    (∃ pre p post, visited_packets [sample_control, sample_notes] = pre ++ p :: post ∧
      (∀ q ∈ pre, ¬ is_note_on q) ∧ is_note_on p ∧
      do_record [sample_control, sample_notes]
        = smf_written (⟨delta_ticks p.start p.now, p.b1 % 256, p.b2 % 256, p.b3 % 256⟩
            :: recorded_from p.now post) ∧
      (∃ len4, len4.length = 4 ∧
        (do_record [sample_control, sample_notes]).data
          = smf_preamble ++ len4 ++ [0x00, 0xFF, 0x51, 0x03, 0x07, 0xA1, 0x20]
            ++ event_layout (delta_ticks p.start p.now) (p.b1 % 256) (p.b2 % 256) (p.b3 % 256)
            ++ events_layout (recorded_from p.now post) ++ [0x00, 0xFF, 0x2F, 0x00]) ∧
      0x07 * 65536 + 0xA1 * 256 + 0x20 = 500000) :=
  ⟨by decide, by decide, by decide,
   set_tempo_written_once [sample_control, sample_notes] (by decide) (by decide) (by decide)⟩

/-! ## Running status in the serial-stream assembler -/

theorem status_written (S v : Nat) (hS : S < 256) :
    ((if (S &&& 0xF0) = 0x90 ∧ v = 0 then 0x80 else (S &&& 0xF0)) ||| (S &&& 0x0F)) % 256
      = if (S &&& 0xF0) = 0x90 ∧ v = 0 then 0x80 ||| (S &&& 0x0F) else S := by
  by_cases hc : (S &&& 0xF0) = 0x90 ∧ v = 0
  · rw [if_pos hc, if_pos hc]
    have h15 : S &&& 15 = S % 16 := land_15 S
    have hor : 128 ||| (S &&& 15) = 128 + (S &&& 15) := lor_nibble 8 _ (by rw [h15]; omega)
    show (128 ||| (S &&& 15)) % 256 = 128 ||| (S &&& 15)
    rw [hor, h15]
    omega
  · rw [if_neg hc, if_neg hc, status_recompose S hS]
    exact Nat.mod_eq_of_lt hS

theorem running_two_fold (S : Nat) (hS : S < 256)
    (ht : ¬ ((S &&& 0xF0) = 0xC0 ∨ (S &&& 0xF0) = 0xD0)) :
    ∀ (groups : List (SerialByte × SerialByte)) (st : AsmState) (l : List Nat),
      st.status_byte = S → st.data_count = 0 → st.midi_f = at_end l →
      (∀ g ∈ groups, g.1.byte < 128 ∧ g.2.byte < 128) →
      ((group_bytes groups).foldl midirec_byte st).status_byte = S ∧
      ((group_bytes groups).foldl midirec_byte st).data_count = 0 ∧
      ((group_bytes groups).foldl midirec_byte st).midi_f
        = at_end (l ++ running_two S st.last_time groups) := by
  intro groups
  induction groups with
  | nil =>
    intro st l hs hc hf _
    exact ⟨hs, hc, by simp [group_bytes, running_two, hf]⟩
  | cons g gs ih =>
    intro st l hs hc hf hdata
    obtain ⟨a, b⟩ := g
    obtain ⟨ha, hb⟩ := hdata (a, b) (List.mem_cons_self _ _)
    simp only [] at ha hb
    have ha0 : a.byte % 256 = a.byte := Nat.mod_eq_of_lt (by omega)
    have hb0 : b.byte % 256 = b.byte := Nat.mod_eq_of_lt (by omega)
    have hta : ¬ ((st.status_byte &&& 0xF0) = 0xC0 ∨ (st.status_byte &&& 0xF0) = 0xD0) := by
      rw [hs]; exact ht
    have h1 := midirec_byte_pending st a (by rw [ha0]; exact cont_bit_of_lt _ ha) hc hta
    have h2 := midirec_byte_second { st with data0 := a.byte % 256, data_count := 1 } b
      (by rw [hb0]; exact cont_bit_of_lt _ hb) rfl hta
    have hs2 : (midirec_byte (midirec_byte st a) b).status_byte = S := by
      rw [h1, h2]; exact hs
    have hc2 : (midirec_byte (midirec_byte st a) b).data_count = 0 := by
      rw [h1, h2]
    have hl2 : (midirec_byte (midirec_byte st a) b).last_time = b.now := by
      rw [h1, h2]
    have hf2 : (midirec_byte (midirec_byte st a) b).midi_f
        = at_end (l ++ (varlen_bytes (delta_ticks st.last_time b.now)
            ++ [if (S &&& 0xF0) = 0x90 ∧ b.byte = 0 then 0x80 ||| (S &&& 0x0F) else S,
                a.byte, b.byte])) := by
      rw [h1, h2]
      simp only []
      rw [hf, write_varlen_at_end, fputc_at_end, fputc_at_end, fputc_at_end, hs,
        status_written S _ hS, hb0, ha0, Nat.mod_eq_of_lt (show a.byte < 256 by omega),
        Nat.mod_eq_of_lt (show b.byte < 256 by omega)]
      simp
    simp only [group_bytes, List.foldl_cons]
    obtain ⟨r1, r2, r3⟩ := ih (midirec_byte (midirec_byte st a) b) _ hs2 hc2 hf2
      (fun x hx => hdata x (List.mem_cons_of_mem _ hx))
    refine ⟨r1, r2, ?_⟩
    rw [r3, hl2]
    simp [running_two]

theorem running_one_fold (S : Nat) (hS : S < 256)
    (ht : (S &&& 0xF0) = 0xC0 ∨ (S &&& 0xF0) = 0xD0) :
    ∀ (singles : List SerialByte) (st : AsmState) (l : List Nat),
      st.status_byte = S → st.data_count = 0 → st.midi_f = at_end l →
      (∀ a ∈ singles, a.byte < 128) →
      (singles.foldl midirec_byte st).status_byte = S ∧
      (singles.foldl midirec_byte st).data_count = 0 ∧
      (singles.foldl midirec_byte st).midi_f
        = at_end (l ++ running_one S st.last_time singles) := by
  intro singles
  induction singles with
  | nil =>
    intro st l hs hc hf _
    exact ⟨hs, hc, by simp [running_one, hf]⟩
  | cons a gs ih =>
    intro st l hs hc hf hdata
    have ha : a.byte < 128 := hdata a (List.mem_cons_self _ _)
    have ha0 : a.byte % 256 = a.byte := Nat.mod_eq_of_lt (by omega)
    have hta : (st.status_byte &&& 0xF0) = 0xC0 ∨ (st.status_byte &&& 0xF0) = 0xD0 := by
      rw [hs]; exact ht
    have h1 := midirec_byte_single st a (by rw [ha0]; exact cont_bit_of_lt _ ha) hc hta
    have hs2 : (midirec_byte st a).status_byte = S := by rw [h1]; exact hs
    have hc2 : (midirec_byte st a).data_count = 0 := by rw [h1]
    have hl2 : (midirec_byte st a).last_time = a.now := by rw [h1]
    have hf2 : (midirec_byte st a).midi_f
        = at_end (l ++ (varlen_bytes (delta_ticks st.last_time a.now) ++ [S, a.byte])) := by
      rw [h1]
      simp only []
      rw [hf, write_varlen_at_end, fputc_at_end, fputc_at_end, hs, status_recompose S hS,
        Nat.mod_eq_of_lt hS, ha0, Nat.mod_eq_of_lt (show a.byte < 256 by omega)]
      simp
    simp only [List.foldl_cons]
    obtain ⟨r1, r2, r3⟩ := ih (midirec_byte st a) _ hs2 hc2 hf2
      (fun x hx => hdata x (List.mem_cons_of_mem _ hx))
    refine ⟨r1, r2, ?_⟩
    rw [r3, hl2]
    simp [running_one]

theorem midirec_byte_no_write (st : AsmState) (b : SerialByte)
    (h : ¬ completes_message st b) : (midirec_byte st b).midi_f = st.midi_f := by
  unfold completes_message at h
  unfold midirec_byte
  simp only []
  by_cases hb : (b.byte % 256) &&& 0x80 ≠ 0
  · rw [if_pos hb]
  · rw [if_neg hb]
    have hb0 : (b.byte % 256) &&& 0x80 = 0 := not_not.mp hb
    have hn : ¬ ((if st.data_count < 2 then st.data_count + 1 else st.data_count) =
        (if (st.status_byte &&& 0xF0) = 0xC0 ∨ (st.status_byte &&& 0xF0) = 0xD0 then 1
          else 2)) := fun hc => h ⟨hb0, hc⟩
    by_cases h2 : st.data_count < 2
    · rw [if_pos h2] at hn
      by_cases h0 : st.data_count = 0
      · simp only [if_pos h2, if_pos h0]
        rw [if_neg (by rw [h0] at hn; exact hn)]
      · simp only [if_pos h2, if_neg h0]
        rw [if_neg (by have : st.data_count = 1 := by omega
                       rw [this] at hn; exact hn)]
    · rw [if_neg h2] at hn
      simp only [if_neg h2]
      rw [if_neg hn]

theorem midirec_byte_write (st : AsmState) (b : SerialByte) (l : List Nat)
    (hf : st.midi_f = at_end l) (h : completes_message st b) :
    ∃ event, (midirec_byte st b).midi_f
      = at_end (l ++ varlen_bytes (delta_ticks st.last_time b.now) ++ event) := by
  obtain ⟨hb, hc⟩ := h
  by_cases ht : (st.status_byte &&& 0xF0) = 0xC0 ∨ (st.status_byte &&& 0xF0) = 0xD0
  · rw [if_pos ht] at hc
    have hc0 : st.data_count = 0 := by
      by_cases h2 : st.data_count < 2
      · rw [if_pos h2] at hc; omega
      · rw [if_neg h2] at hc; omega
    rw [midirec_byte_single st b hb hc0 ht]
    simp only [hf, write_varlen_at_end, fputc_at_end, List.append_assoc]
    exact ⟨_, rfl⟩
  · rw [if_neg ht] at hc
    by_cases h2 : st.data_count < 2
    · rw [if_pos h2] at hc
      have hc1 : st.data_count = 1 := by omega
      rw [midirec_byte_second st b hb hc1 ht]
      simp only [hf, write_varlen_at_end, fputc_at_end, List.append_assoc]
      exact ⟨_, rfl⟩
    · rw [if_neg h2] at hc
      have hst : (if st.data_count < 2 then
          (if st.data_count = 0 then { st with data0 := b.byte % 256, data_count := 1 }
            else { st with data1 := b.byte % 256, data_count := 2 })
          else st) = st := if_neg h2
      unfold midirec_byte
      simp only []
      rw [if_neg (not_not.mpr hb), hst, if_neg ht, if_pos hc]
      simp only [hf, write_varlen_at_end]
      split_ifs <;> simp only [fputc_at_end, List.append_assoc] <;> exact ⟨_, rfl⟩

theorem midirec_ticks_status (st : AsmState) (S : SerialByte) (rest : List SerialByte)
    (hhigh : (S.byte % 256) &&& 0x80 ≠ 0) :
    midirec_ticks st (S :: rest) = midirec_ticks (midirec_byte st S) rest := by
  simp only [midirec_ticks]
  rw [if_neg (fun h => hhigh h.1)]
  rfl

theorem midirec_ticks_two (S : Nat)
    (ht : ¬ ((S &&& 0xF0) = 0xC0 ∨ (S &&& 0xF0) = 0xD0)) :
    ∀ (groups : List (SerialByte × SerialByte)) (st : AsmState),
      st.status_byte = S → st.data_count = 0 →
      (∀ g ∈ groups, g.1.byte < 128 ∧ g.2.byte < 128) →
      midirec_ticks st (group_bytes groups) = running_two_ticks st.last_time groups := by
  intro groups
  induction groups with
  | nil => intro st _ _ _; rfl
  | cons g groups ih =>
    obtain ⟨a, b⟩ := g
    intro st hs hc hdata
    have ha : a.byte < 128 := (hdata (a, b) (List.mem_cons_self _ _)).1
    have hb : b.byte < 128 := (hdata (a, b) (List.mem_cons_self _ _)).2
    have ha0 : (a.byte % 256) &&& 0x80 = 0 := by
      rw [Nat.mod_eq_of_lt (by omega)]; exact cont_bit_of_lt _ ha
    have hb0 : (b.byte % 256) &&& 0x80 = 0 := by
      rw [Nat.mod_eq_of_lt (by omega)]; exact cont_bit_of_lt _ hb
    have hta : ¬ ((st.status_byte &&& 0xF0) = 0xC0 ∨ (st.status_byte &&& 0xF0) = 0xD0) := by
      rw [hs]; exact ht
    have h1 := midirec_byte_pending st a ha0 hc hta
    have hs1 : (midirec_byte st a).status_byte = S := by rw [h1]; exact hs
    have hc1 : (midirec_byte st a).data_count = 1 := by rw [h1]
    have hl1 : (midirec_byte st a).last_time = st.last_time := by rw [h1]
    have hta1 : ¬ (((midirec_byte st a).status_byte &&& 0xF0) = 0xC0
        ∨ ((midirec_byte st a).status_byte &&& 0xF0) = 0xD0) := by rw [hs1]; exact ht
    have h2 := midirec_byte_second (midirec_byte st a) b hb0 hc1 hta1
    have hs2 : (midirec_byte (midirec_byte st a) b).status_byte = S := by rw [h2]; exact hs1
    have hc2 : (midirec_byte (midirec_byte st a) b).data_count = 0 := by rw [h2]
    have hl2 : (midirec_byte (midirec_byte st a) b).last_time = b.now := by rw [h2]
    have hn1 : ¬ completes_message st a := by
      rintro ⟨_, hcm⟩
      rw [hc, if_neg hta] at hcm
      simp at hcm
    have hy2 : completes_message (midirec_byte st a) b := by
      refine ⟨hb0, ?_⟩
      rw [hc1, if_neg hta1]
      rfl
    show midirec_ticks st (a :: b :: group_bytes groups) = _
    simp only [midirec_ticks, running_two_ticks]
    rw [if_neg hn1, if_pos hy2, hl1,
      ih (midirec_byte (midirec_byte st a) b) hs2 hc2
        (fun x hx => hdata x (List.mem_cons_of_mem _ hx)), hl2]
    rfl

theorem midirec_ticks_one (S : Nat)
    (ht : (S &&& 0xF0) = 0xC0 ∨ (S &&& 0xF0) = 0xD0) :
    ∀ (singles : List SerialByte) (st : AsmState),
      st.status_byte = S → st.data_count = 0 →
      (∀ a ∈ singles, a.byte < 128) →
      midirec_ticks st singles = running_one_ticks st.last_time singles := by
  intro singles
  induction singles with
  | nil => intro st _ _ _; rfl
  | cons a singles ih =>
    intro st hs hc hdata
    have ha : a.byte < 128 := hdata a (List.mem_cons_self _ _)
    have ha0 : (a.byte % 256) &&& 0x80 = 0 := by
      rw [Nat.mod_eq_of_lt (by omega)]; exact cont_bit_of_lt _ ha
    have hta : (st.status_byte &&& 0xF0) = 0xC0 ∨ (st.status_byte &&& 0xF0) = 0xD0 := by
      rw [hs]; exact ht
    have h1 := midirec_byte_single st a ha0 hc hta
    have hs1 : (midirec_byte st a).status_byte = S := by rw [h1]; exact hs
    have hc1 : (midirec_byte st a).data_count = 0 := by rw [h1]
    have hl1 : (midirec_byte st a).last_time = a.now := by rw [h1]
    have hy : completes_message st a := by
      refine ⟨ha0, ?_⟩
      rw [hc, if_pos hta]
      rfl
    simp only [midirec_ticks, running_one_ticks]
    rw [if_pos hy, ih (midirec_byte st a) hs1 hc1
      (fun x hx => hdata x (List.mem_cons_of_mem _ hx)), hl1]
    rfl

/-- C18 (running status): for every status byte `S` with the high bit set that reaches
the assembler of `midirec.c` in any state, followed by `k` complete groups of data
bytes, two per group, or one per group when `(S & 0xF0)` is 0xC0 or 0xD0, with no
status byte in between, and with the delta-time of each group below `2^28`, the file
receives exactly the `k` events of the groups in order, each with the ticks since the
previous one, the status `S` (for a Note-On with velocity 0 its channel with type
0x80) and the data bytes of its group; after the last group, and so after every
group, the pending-data count is 0 and the running status is still `S`. -/
theorem running_status (st : AsmState) (l : List Nat) (S : SerialByte)
    (hf : st.midi_f = at_end l) (hS : S.byte < 256) (hhigh : S.byte &&& 0x80 ≠ 0) :
    (¬ ((S.byte &&& 0xF0) = 0xC0 ∨ (S.byte &&& 0xF0) = 0xD0) →
      ∀ groups : List (SerialByte × SerialByte),
        (∀ g ∈ groups, g.1.byte < 128 ∧ g.2.byte < 128) →
        (∀ t ∈ running_two_ticks st.last_time groups, t < 2 ^ 28) →
        ((S :: group_bytes groups).foldl midirec_byte st).status_byte = S.byte ∧
        ((S :: group_bytes groups).foldl midirec_byte st).data_count = 0 ∧
        ((S :: group_bytes groups).foldl midirec_byte st).midi_f
          = at_end (l ++ running_two S.byte st.last_time groups)) ∧
    (((S.byte &&& 0xF0) = 0xC0 ∨ (S.byte &&& 0xF0) = 0xD0) →
      ∀ singles : List SerialByte,
        (∀ a ∈ singles, a.byte < 128) →
        (∀ t ∈ running_one_ticks st.last_time singles, t < 2 ^ 28) →
        ((S :: singles).foldl midirec_byte st).status_byte = S.byte ∧
        ((S :: singles).foldl midirec_byte st).data_count = 0 ∧
        ((S :: singles).foldl midirec_byte st).midi_f
          = at_end (l ++ running_one S.byte st.last_time singles)) := by
  have hS0 : S.byte % 256 = S.byte := Nat.mod_eq_of_lt hS
  have h0 := midirec_byte_status st S (by rw [hS0]; exact hhigh)
  rw [hS0] at h0
  refine ⟨fun ht groups hdata _ => ?_, fun ht singles hdata _ => ?_⟩
  · rw [List.foldl_cons, h0]
    exact running_two_fold S.byte hS ht groups _ l rfl rfl hf hdata
  · rw [List.foldl_cons, h0]
    exact running_one_fold S.byte hS ht singles _ l rfl rfl hf hdata

theorem running_status_witness :
    (⟨0x93, ⟨10, 0⟩⟩ : SerialByte).byte < 256 ∧
    (⟨0x93, ⟨10, 0⟩⟩ : SerialByte).byte &&& 0x80 ≠ 0 ∧
    (∀ t ∈ running_two_ticks (midirec_init (at_end [1, 2]) ⟨10, 0⟩).last_time
        [(⟨60, ⟨10, 0⟩⟩, ⟨100, ⟨10, 0⟩⟩), (⟨60, ⟨10, 500000000⟩⟩, ⟨0, ⟨10, 500000000⟩⟩)],
      t < 2 ^ 28) ∧
    ((((⟨0x93, ⟨10, 0⟩⟩ : SerialByte) :: group_bytes
        [(⟨60, ⟨10, 0⟩⟩, ⟨100, ⟨10, 0⟩⟩), (⟨60, ⟨10, 500000000⟩⟩, ⟨0, ⟨10, 500000000⟩⟩)]).foldl
        midirec_byte (midirec_init (at_end [1, 2]) ⟨10, 0⟩)).status_byte
      = (⟨0x93, ⟨10, 0⟩⟩ : SerialByte).byte ∧
    (((⟨0x93, ⟨10, 0⟩⟩ : SerialByte) :: group_bytes
        [(⟨60, ⟨10, 0⟩⟩, ⟨100, ⟨10, 0⟩⟩), (⟨60, ⟨10, 500000000⟩⟩, ⟨0, ⟨10, 500000000⟩⟩)]).foldl
        midirec_byte (midirec_init (at_end [1, 2]) ⟨10, 0⟩)).data_count = 0 ∧
    (((⟨0x93, ⟨10, 0⟩⟩ : SerialByte) :: group_bytes
        [(⟨60, ⟨10, 0⟩⟩, ⟨100, ⟨10, 0⟩⟩), (⟨60, ⟨10, 500000000⟩⟩, ⟨0, ⟨10, 500000000⟩⟩)]).foldl
        midirec_byte (midirec_init (at_end [1, 2]) ⟨10, 0⟩)).midi_f
      = at_end ([1, 2] ++ running_two (⟨0x93, ⟨10, 0⟩⟩ : SerialByte).byte
          (midirec_init (at_end [1, 2]) ⟨10, 0⟩).last_time
          [(⟨60, ⟨10, 0⟩⟩, ⟨100, ⟨10, 0⟩⟩),
           (⟨60, ⟨10, 500000000⟩⟩, ⟨0, ⟨10, 500000000⟩⟩)])) :=
  ⟨by decide, by decide, by decide,
   (running_status (midirec_init (at_end [1, 2]) ⟨10, 0⟩) [1, 2] ⟨0x93, ⟨10, 0⟩⟩ rfl
      (by decide) (by decide)).1 (by decide)
      [(⟨60, ⟨10, 0⟩⟩, ⟨100, ⟨10, 0⟩⟩), (⟨60, ⟨10, 500000000⟩⟩, ⟨0, ⟨10, 500000000⟩⟩)]
      (by decide) (by decide)⟩

/-! ## Data bytes before any status byte -/

theorem midirec_two_data_bytes :
    midirec_main ⟨10, 0⟩ [⟨2, [0x3C, 0x40], [⟨10, 0⟩, ⟨10, 0⟩]⟩]
      = at_pos (smf_preamble ++ [0, 0, 0, 8] ++ [0x00, 0x00, 0x3C, 0x40] ++ end_of_track) 22 := by
  have hb : visited_bytes [⟨2, [0x3C, 0x40], [⟨10, 0⟩, ⟨10, 0⟩]⟩]
      = group_bytes [(⟨0x3C, ⟨10, 0⟩⟩, ⟨0x40, ⟨10, 0⟩⟩)] := by decide
  have hrun : running_two 0 ⟨10, 0⟩ [(⟨0x3C, ⟨10, 0⟩⟩, ⟨0x40, ⟨10, 0⟩⟩)]
      = [0x00, 0x00, 0x3C, 0x40] := by
    have hd : delta_ticks ⟨10, 0⟩ ⟨10, 0⟩ = 0 := by decide
    simp only [running_two]
    rw [hd, varlen_bytes_zero, if_neg (by decide)]
    rfl
  have hfold := (running_two_fold 0 (by norm_num) (by decide)
    [(⟨0x3C, ⟨10, 0⟩⟩, ⟨0x40, ⟨10, 0⟩⟩)]
    (midirec_init (at_end (smf_preamble ++ [0, 0, 0, 0])) ⟨10, 0⟩)
    (smf_preamble ++ [0, 0, 0, 0]) rfl rfl rfl (by decide)).2.2
  have hlast : (midirec_init (at_end (smf_preamble ++ [0, 0, 0, 0])) ⟨10, 0⟩).last_time
      = ⟨10, 0⟩ := rfl
  rw [hlast, hrun, ← hb] at hfold
  rw [midirec_main_eq _ _ _ hfold]
  have hlen : be32 ((([0x00, 0x00, 0x3C, 0x40] : List Nat).length + 4) % 4294967296)
      = [0, 0, 0, 8] := by decide
  rw [hlen]

/-- C17 (status invariant, evaluated): when the first bytes the assembler of
`midirec.c` receives are the data bytes 3C 40, with no status byte before them, it
writes the event 00 00 3C 40 to the file: the status byte, at file offset 23, is 0x00,
whose high bit is clear. -/
theorem data_bytes_before_status_emit_status_zero :
    (midirec_main ⟨10, 0⟩ [⟨2, [0x3C, 0x40], [⟨10, 0⟩, ⟨10, 0⟩]⟩]).data
      = smf_preamble ++ [0, 0, 0, 8] ++ [0x00, 0x00, 0x3C, 0x40] ++ [0x00, 0xFF, 0x2F, 0x00] ∧
    (midirec_main ⟨10, 0⟩ [⟨2, [0x3C, 0x40], [⟨10, 0⟩, ⟨10, 0⟩]⟩]).data.getD 23 0 = 0x00 ∧
    (midirec_main ⟨10, 0⟩ [⟨2, [0x3C, 0x40], [⟨10, 0⟩, ⟨10, 0⟩]⟩]).data.getD 23 0 &&& 0x80
      = 0 := by
  rw [midirec_two_data_bytes]
  exact ⟨rfl, by decide, by decide⟩

end Midiloop
